import Mathlib

/-!
# Verification of the Moduls-Ciber number-theoretic crypto library

Shallow embedding of the arithmetic substrate (`src/dist/bundles/esm.js`,
a bundled copy of bigint-crypto-utils), the RSA and Paillier key classes
(`src/dist/cjs/index.node.cjs`), and the Shamir secret-sharing component
(whose TypeScript source is not part of the repository snapshot and is
modelled from the specification).

Conventions for translating JavaScript BigInt arithmetic:
* JS `a % b` truncates toward zero (sign of the dividend); we embed it as
  `Int.tmod` wherever a negative dividend is reachable, and as Lean `%`
  (`Int.emod`) where both operands are provably nonnegative, in which case
  the two coincide (`Int.tmod_eq_emod`).
* JS `a / b` truncates toward zero; we embed it as Lean `/` (`Int.ediv`)
  where the operands are nonnegative (the two coincide there) and as
  `Int.tdiv` where a negative dividend is reachable.
* JS `a >> 1n` is an arithmetic shift, i.e. flooring division by two,
  which for any sign of `a` equals Lean's `a / 2` (`Int.ediv`).
* Functions that can `throw RangeError` are embedded with an `Option`
  result, `none` standing for the thrown error.
-/

namespace ModulsCiber

/-- `abs(a)` from esm.js: `(a >= 0) ? a : -a`. -/
def abs (a : ℤ) : ℤ := if a ≥ 0 then a else -a

/-- The `do bits++ while ((a >>= 1n) > 1n)` loop of `bitLength` in esm.js.
`a >>= 1n` is an arithmetic shift, embedded as flooring division by 2. -/
def bitLengthLoop (a : ℤ) (bits : ℕ) : ℕ :=
  let a' := a / 2
  let bits' := bits + 1
  if h : 1 < a' then bitLengthLoop a' bits' else bits'
termination_by a.toNat
decreasing_by
  omega

/-- `bitLength(a)` from esm.js: returns 1 for `a = 1`, otherwise runs the
shift loop starting from `bits = 1`. -/
def bitLength (a : ℤ) : ℕ :=
  if a = 1 then 1 else bitLengthLoop a 1

/-- The `while (a !== 0n)` loop of `eGcd` in esm.js.  One iteration computes
`q = b / a`, `r = b % a` and rotates the Bézout accumulators.  Inside the
loop `a` and `b` are nonnegative (they start positive and `r = b % a ≥ 0`),
so the JS truncating `/` and `%` agree with Lean's Euclidean `/` and `%`. -/
def eGcdLoop (a b x y u v : ℤ) : ℤ × ℤ × ℤ :=
  if h : 0 < a then
    eGcdLoop (b % a) a u v (x - u * (b / a)) (y - v * (b / a))
  else (b, x, y)
termination_by a.toNat
decreasing_by
  have h1 : b % a < a := Int.emod_lt_of_pos b h
  have h2 : 0 ≤ b % a := Int.emod_nonneg b (by omega)
  omega

/-- `eGcd(a, b)` from esm.js: throws (`none`) unless `a > 0 ∧ b > 0`,
otherwise runs the iterative extended-Euclid loop from
`x = 0, y = 1, u = 1, v = 0` and returns `(g, x, y)`. -/
def eGcd (a b : ℤ) : Option (ℤ × ℤ × ℤ) :=
  if a ≤ 0 ∨ b ≤ 0 then none
  else some (eGcdLoop a b 0 1 1 0)

/-- The `while ((aAbs & 1n) === 0n) aAbs >>= 1n` loop of `gcd` in esm.js,
on the nonnegative values reached there.  The `0 < a` guard encodes the
caller's invariant (`aAbs ≠ 0` is checked before the loop is entered; on
`a = 0` the JS loop would never terminate). -/
def evenLoop (a : ℕ) : ℕ :=
  if h : a &&& 1 = 0 ∧ 0 < a then evenLoop (a / 2) else a
termination_by a
decreasing_by omega

theorem evenLoop_le (a : ℕ) : evenLoop a ≤ a := by
  induction a using evenLoop.induct with
  | case1 a h ih =>
    rw [evenLoop, dif_pos h]
    omega
  | case2 a h =>
    rw [evenLoop, dif_neg h]

theorem evenLoop_pos (a : ℕ) : 0 < a → 0 < evenLoop a := by
  induction a using evenLoop.induct with
  | case1 a h ih =>
    intro _
    rw [evenLoop, dif_pos h]
    have h2 : a % 2 = 0 := by
      have := Nat.and_one_is_mod a
      omega
    exact ih (by omega)
  | case2 a h =>
    intro ha
    rw [evenLoop, dif_neg h]
    exact ha

/-- The `while (((aAbs | bAbs) & 1n) === 0n)` joint halving loop of `gcd`
in esm.js, counting the removed factors of two in `s`.  The `0 < a` guard
encodes the caller's invariant (`aAbs ≠ 0` on entry). -/
def shiftLoop (a b s : ℕ) : ℕ × ℕ × ℕ :=
  if h : (a ||| b) &&& 1 = 0 ∧ 0 < a then shiftLoop (a / 2) (b / 2) (s + 1)
  else (a, b, s)
termination_by a
decreasing_by omega

/-- The `do { ... } while (bAbs !== 0n)` subtraction loop of `gcd` in
esm.js: strip factors of two from `b` (`evenLoop`), swap so that `a`
holds the smaller of the two values, subtract it from the larger, and
repeat until the difference is zero.  The two branches spell out the
`if (aAbs > bAbs) swap` of the source.  The `0 < a ∧ 0 < b` guard encodes
the loop's invariant on entry. -/
def subLoop (a b : ℕ) : ℕ :=
  if h : 0 < a ∧ 0 < b then
    if a > evenLoop b then
      if a - evenLoop b = 0 then evenLoop b
      else subLoop (evenLoop b) (a - evenLoop b)
    else
      if evenLoop b - a = 0 then a
      else subLoop a (evenLoop b - a)
  else a
termination_by a + b
decreasing_by
  · have h1 := evenLoop_le b
    omega
  · have h1 := evenLoop_le b
    omega

/-- `gcd(a, b)` from esm.js: iterative binary GCD of `|a|` and `|b|`.
All intermediate values are nonnegative, so they are carried on `ℕ`. -/
def gcd (a b : ℤ) : ℤ :=
  let aAbs := (abs a).toNat
  let bAbs := (abs b).toNat
  if aAbs = 0 then (bAbs : ℤ)
  else if bAbs = 0 then (aAbs : ℤ)
  else
    let t := shiftLoop aAbs bAbs 0
    let a2 := evenLoop t.1
    ((subLoop a2 t.2.1 <<< t.2.2 : ℕ) : ℤ)

/-- `lcm(a, b)` from esm.js: `0` when both are `0`, else `abs(a*b)/gcd(a,b)`
(both operands of the division are nonnegative, so JS truncating division
agrees with Lean `/`). -/
def lcm (a b : ℤ) : ℤ :=
  if a = 0 ∧ b = 0 then 0 else abs (a * b) / gcd a b

/-- `toZn(a, n)` from esm.js: throws (`none`) unless `n > 0`; computes
`aZn = a % n` with JS truncating remainder (`Int.tmod`, negative for
negative `a`) and adds `n` back when negative. -/
def toZn (a n : ℤ) : Option ℤ :=
  if n ≤ 0 then none
  else
    let aZn := Int.tmod a n
    some (if aZn < 0 then aZn + n else aZn)

/-- `modInv(a, n)` from esm.js: `eGcd(toZn(a, n), n)`, throwing (`none`)
when the gcd is not `1`, otherwise returning `toZn(x, n)`. -/
def modInv (a n : ℤ) : Option ℤ :=
  (toZn a n).bind fun az =>
    (eGcd az n).bind fun gxy =>
      if gxy.1 = 1 then toZn gxy.2.1 n else none

/-- The `while (e > 0)` square-and-multiply loop of `modPow` in esm.js.
Inside the loop `e > 0` and `r, b ≥ 0`, so JS `%` and `/` agree with
Lean's `%` and `/`. -/
def modPowLoop (r b e n : ℤ) : ℤ :=
  if h : 0 < e then
    modPowLoop (if e % 2 = 1 then r * b % n else r) (b ^ 2 % n) (e / 2) n
  else r
termination_by e.toNat
decreasing_by omega

/-- `modPow(b, e, n)` from esm.js: throws (`none`) for `n ≤ 0`,
short-circuits `n = 1` to `0`, reduces the base with `toZn`, handles a
negative exponent as `modInv(modPow(b, abs(e), n), n)` and otherwise runs
the binary exponentiation loop with accumulator `1`. -/
def modPow (b e n : ℤ) : Option ℤ :=
  if n ≤ 0 then none
  else if n = 1 then some 0
  else
    (toZn b n).bind fun b0 =>
      if he : e < 0 then (modPow b0 (abs e) n).bind fun r => modInv r n
      else some (modPowLoop 1 b0 e n)
termination_by (if e < 0 then 1 else 0 : ℕ)
decreasing_by
  have h1 : ¬ abs e < 0 := by
    simp only [abs]
    split_ifs <;> omega
  simp only [if_neg h1, if_pos he]
  omega

/-! ## Basic facts about the embedded arithmetic -/

theorem abs_eq (a : ℤ) : abs a = |a| := by
  simp only [abs]
  split_ifs with h
  · exact (abs_of_nonneg h).symm
  · exact (abs_of_neg (by omega)).symm

/-- For a positive modulus, `toZn` succeeds and returns the Euclidean
(canonical) residue. -/
theorem toZn_eq (a : ℤ) {n : ℤ} (hn : 0 < n) : toZn a n = some (a % n) := by
  unfold toZn
  rw [if_neg (by omega)]
  simp only
  have hub : Int.tmod a n < n := Int.tmod_lt_of_pos a hn
  have hlb : -n < Int.tmod a n := by
    rcases le_or_lt 0 a with h | h
    · have := Int.tmod_nonneg n h
      omega
    · have h2 : Int.tmod (-a) n < n := Int.tmod_lt_of_pos (-a) hn
      have h3 : Int.tmod (-a) n = - Int.tmod a n := by
        rw [Int.tmod_def, Int.tmod_def, Int.neg_tdiv]
        ring
      omega
  have hdvd : n ∣ a - Int.tmod a n := by
    refine Dvd.intro (a.tdiv n) ?_
    have := Int.tmod_add_tdiv a n
    linarith
  have hdvd2 : n ∣ Int.tmod a n - a := by
    have h4 := (Int.dvd_neg).mpr hdvd
    rw [neg_sub] at h4
    exact h4
  congr 1
  set t := if Int.tmod a n < 0 then Int.tmod a n + n else Int.tmod a n with ht
  have htb : 0 ≤ t ∧ t < n := by
    rw [ht]; split_ifs <;> omega
  have h1 : n ∣ t - a := by
    rw [ht]; split_ifs
    · have he : Int.tmod a n + n - a = (Int.tmod a n - a) + n := by ring
      rw [he]
      exact dvd_add hdvd2 dvd_rfl
    · exact hdvd2
  have h2 : a ≡ t [ZMOD n] := Int.modEq_iff_dvd.mpr h1
  have h3 : a % n = t % n := h2
  rw [h3, Int.emod_eq_of_lt htb.1 htb.2]

/-- Euclid's step preserves the (mathematical) gcd. -/
theorem int_gcd_emod (a b : ℤ) : Int.gcd (b % a) a = Int.gcd a b := by
  rcases eq_or_ne a 0 with rfl | ha
  · simp [Int.gcd_comm]
  apply Nat.dvd_antisymm
  · rw [← Int.natCast_dvd_natCast]
    refine Int.dvd_gcd ?_ ?_
    · exact Int.gcd_dvd_right
    · have h5 : ((Int.gcd (b % a) a : ℤ)) ∣ b % a + a * (b / a) :=
        dvd_add Int.gcd_dvd_left (Dvd.dvd.mul_right Int.gcd_dvd_right _)
      rwa [Int.emod_add_ediv b a] at h5
  · rw [← Int.natCast_dvd_natCast]
    refine Int.dvd_gcd ?_ ?_
    · have hm : b % a = b - a * (b / a) := Int.emod_def b a
      rw [hm]
      exact dvd_sub Int.gcd_dvd_right (Dvd.dvd.mul_right Int.gcd_dvd_left _)
    · exact Int.gcd_dvd_left

/-- Loop invariant of `eGcdLoop`: starting from Bézout combinations of
`a0, b0` for the pair `(a, b)`, the loop returns `g = gcd(a, b)` together
with a Bézout certificate for `g`. -/
theorem eGcdLoop_spec (a0 b0 : ℤ) (a b x y u v : ℤ) :
    0 ≤ a → 0 < b → a0 * x + b0 * y = b → a0 * u + b0 * v = a →
    (eGcdLoop a b x y u v).1 = Int.gcd a b ∧
      a0 * (eGcdLoop a b x y u v).2.1 + b0 * (eGcdLoop a b x y u v).2.2 =
        (eGcdLoop a b x y u v).1 := by
  induction a, b, x, y, u, v using eGcdLoop.induct with
  | case1 a b x y u v h ih =>
    intro _ hb hxy huv
    rw [eGcdLoop, dif_pos h]
    have hr : a0 * (x - u * (b / a)) + b0 * (y - v * (b / a)) = b % a := by
      have hm : b % a = b - a * (b / a) := Int.emod_def b a
      rw [hm, ← hxy, ← huv]
      ring
    have hres := ih (Int.emod_nonneg b (by omega)) h huv hr
    rw [int_gcd_emod a b] at hres
    exact hres
  | case2 a b x y u v h =>
    intro ha hb hxy huv
    rw [eGcdLoop, dif_neg h]
    have ha0 : a = 0 := by omega
    subst ha0
    constructor
    · simp [Int.gcd_zero_left, Int.natAbs_of_nonneg (le_of_lt hb)]
    · exact hxy

/-- `eGcd` on positive inputs returns the gcd with a Bézout certificate. -/
theorem eGcd_pos (a b : ℤ) (ha : 0 < a) (hb : 0 < b) :
    ∃ x y : ℤ, eGcd a b = some ((Int.gcd a b : ℤ), x, y) ∧
      a * x + b * y = Int.gcd a b := by
  unfold eGcd
  rw [if_neg (by omega)]
  have h := eGcdLoop_spec a b a b 0 1 1 0 (le_of_lt ha) hb (by ring) (by ring)
  refine ⟨(eGcdLoop a b 0 1 1 0).2.1, (eGcdLoop a b 0 1 1 0).2.2, ?_, ?_⟩
  · congr 1
    have := h.1
    exact Prod.ext this (Prod.ext rfl rfl)
  · rw [h.2, h.1]

/-- Forward reading of `modInv`: a successful result is the canonical
modular inverse. -/
theorem modInv_spec {a n x : ℤ} (h : modInv a n = some x) :
    0 < n ∧ 0 ≤ x ∧ x < n ∧ a * x ≡ 1 [ZMOD n] := by
  unfold modInv at h
  by_cases hn : 0 < n
  case neg =>
    unfold toZn at h
    rw [if_pos (by omega)] at h
    simp at h
  rw [toZn_eq a hn] at h
  rw [Option.some_bind] at h
  by_cases hpos : 0 < a % n
  case neg =>
    unfold eGcd at h
    rw [if_pos (by omega)] at h
    simp at h
  obtain ⟨u, v, heq, hbez⟩ := eGcd_pos (a % n) n hpos hn
  rw [heq, Option.some_bind] at h
  by_cases hg : ((Int.gcd (a % n) n : ℤ)) = 1
  case neg =>
    rw [if_neg hg] at h
    simp at h
  rw [if_pos hg, toZn_eq u hn] at h
  have hx : x = u % n := by
    injection h with h'
    exact h'.symm
  subst hx
  refine ⟨hn, Int.emod_nonneg u (by omega), Int.emod_lt_of_pos u hn, ?_⟩
  have m1 : u % n ≡ u [ZMOD n] := Int.emod_emod_of_dvd u dvd_rfl
  have m2 : a ≡ a % n [ZMOD n] := (Int.emod_emod_of_dvd a dvd_rfl).symm
  have m3 : a * (u % n) ≡ (a % n) * u [ZMOD n] := Int.ModEq.mul m2 m1
  refine m3.trans ?_
  have m4 : (a % n) * u ≡ 1 [ZMOD n] := by
    rw [Int.modEq_iff_dvd]
    refine ⟨v, ?_⟩
    rw [hg] at hbez
    linarith
  exact m4

/-- Backward reading of `modInv`: the canonical inverse, when one exists,
is what `modInv` returns. -/
theorem modInv_eq {a n x : ℤ} (hn : 1 < n) (hx0 : 0 ≤ x) (hxn : x < n)
    (hinv : a * x ≡ 1 [ZMOD n]) : modInv a n = some x := by
  have hgcd : Int.gcd a n = 1 := by
    obtain ⟨k, hk⟩ := Int.modEq_iff_dvd.mp hinv
    rw [Int.gcd_comm, ← Int.isCoprime_iff_gcd_eq_one]
    exact ⟨k, x, by linarith⟩
  have hanz : a % n ≠ 0 := by
    intro h0
    have hdvda : n ∣ a := Int.dvd_of_emod_eq_zero h0
    have : n ∣ (Int.gcd a n : ℤ) := Int.dvd_gcd hdvda dvd_rfl
    rw [hgcd] at this
    have := Int.le_of_dvd (by norm_num) this
    omega
  have hg2 : Int.gcd (a % n) n = 1 := by
    rw [int_gcd_emod n a, Int.gcd_comm, hgcd]
  have hpos : 0 < a % n := by
    have := Int.emod_nonneg a (by omega : n ≠ 0)
    omega
  unfold modInv
  rw [toZn_eq a (by omega), Option.some_bind]
  obtain ⟨u, v, heq, hbez⟩ := eGcd_pos (a % n) n hpos (by omega)
  rw [heq, Option.some_bind, if_pos (by rw [hg2]; norm_num),
    toZn_eq u (by omega)]
  congr 1
  -- both x and u % n are inverses of a in [0, n), hence equal
  have m1 : u % n ≡ u [ZMOD n] := Int.emod_emod_of_dvd u dvd_rfl
  have m2 : a ≡ a % n [ZMOD n] := (Int.emod_emod_of_dvd a dvd_rfl).symm
  have m3 : a * (u % n) ≡ 1 [ZMOD n] := by
    refine (Int.ModEq.mul m2 m1).trans ?_
    rw [Int.modEq_iff_dvd]
    refine ⟨v, ?_⟩
    rw [hg2] at hbez
    push_cast at hbez
    linarith
  have h5 : x ≡ u % n [ZMOD n] := by
    calc x ≡ x * (a * (u % n)) [ZMOD n] := by
          have := (Int.ModEq.mul_left x m3).symm
          simpa using this
      _ = (a * x) * (u % n) := by ring
      _ ≡ 1 * (u % n) [ZMOD n] := Int.ModEq.mul_right _ hinv
      _ = u % n := by ring
  have h6 : x % n = (u % n) % n := h5
  rw [Int.emod_eq_of_lt hx0 hxn] at h6
  rw [Int.emod_emod_of_dvd u dvd_rfl] at h6
  exact h6.symm

/-- Loop invariant of `modPowLoop`: binary modular exponentiation. -/
theorem modPowLoop_spec (r b e n : ℤ) :
    1 < n → 0 ≤ e → 0 ≤ r → r < n →
    modPowLoop r b e n = r * b ^ e.toNat % n := by
  induction r, b, e, n using modPowLoop.induct with
  | case1 r b e n h ih =>
    intro hn he hr hrn
    simp only [dite_eq_ite] at ih
    rw [modPowLoop, dif_pos h]
    set k := e.toNat with hk
    have hek : e = (k : ℤ) := by omega
    have hk2 : (e / 2).toNat = k / 2 := by omega
    have hr' : 0 ≤ (if e % 2 = 1 then r * b % n else r) ∧
        (if e % 2 = 1 then r * b % n else r) < n := by
      split_ifs
      · exact ⟨Int.emod_nonneg _ (by omega), Int.emod_lt_of_pos _ (by omega)⟩
      · exact ⟨hr, hrn⟩
    rw [ih hn (by omega) hr'.1 hr'.2, hk2]
    have m2 : (b ^ 2 % n) ^ (k / 2) ≡ (b ^ 2) ^ (k / 2) [ZMOD n] :=
      Int.ModEq.pow _ (Int.emod_emod_of_dvd _ dvd_rfl)
    by_cases hodd : e % 2 = 1
    · rw [if_pos hodd]
      have m1 : r * b % n ≡ r * b [ZMOD n] := Int.emod_emod_of_dvd _ dvd_rfl
      have m3 := Int.ModEq.mul m1 m2
      have m4 : (r * b) * (b ^ 2) ^ (k / 2) = r * b ^ k := by
        rw [← pow_mul]
        have h7 : b * b ^ (2 * (k / 2)) = b ^ k := by
          rw [← pow_succ']
          congr 1
          omega
        calc r * b * b ^ (2 * (k / 2)) = r * (b * b ^ (2 * (k / 2))) := by ring
          _ = r * b ^ k := by rw [h7]
      rw [← m4]
      exact m3
    · rw [if_neg hodd]
      have m3 := Int.ModEq.mul_left r m2
      have m4 : r * (b ^ 2) ^ (k / 2) = r * b ^ k := by
        rw [← pow_mul, show 2 * (k / 2) = k from by omega]
      rw [← m4]
      exact m3
  | case2 r b e n h =>
    intro hn he hr hrn
    rw [modPowLoop, dif_neg h]
    have he0 : e = 0 := by omega
    subst he0
    simp [Int.emod_eq_of_lt hr hrn]

/-- `modPow` on a nonnegative exponent and positive modulus returns the
canonical residue of `b ^ e`. -/
theorem modPow_spec {b e n : ℤ} (he : 0 ≤ e) (hn : 0 < n) :
    modPow b e n = some (b ^ e.toNat % n) := by
  rw [modPow, if_neg (by omega)]
  by_cases h1 : n = 1
  · subst h1
    simp [Int.emod_one]
  · rw [if_neg h1]
    rw [toZn_eq b (by omega), Option.some_bind, dif_neg (by omega : ¬ e < 0)]
    rw [modPowLoop_spec 1 (b % n) e n (by omega) he (by norm_num) (by omega)]
    congr 1
    have m : (b % n) ^ e.toNat ≡ b ^ e.toNat [ZMOD n] :=
      Int.ModEq.pow _ (Int.emod_emod_of_dvd b dvd_rfl)
    rw [one_mul]
    exact m


/-! ## Correctness of the binary GCD -/

theorem evenLoop_odd_id {a : ℕ} (ha : a % 2 = 1) : evenLoop a = a := by
  rw [evenLoop, dif_neg]
  rw [Nat.and_one_is_mod]
  omega

theorem evenLoop_odd (a : ℕ) : 0 < a → (evenLoop a) % 2 = 1 := by
  induction a using evenLoop.induct with
  | case1 a h ih =>
    intro _
    rw [evenLoop, dif_pos h]
    have h2 : a % 2 = 0 := by
      have := Nat.and_one_is_mod a
      omega
    exact ih (by omega)
  | case2 a h =>
    intro ha
    rw [evenLoop, dif_neg h]
    rw [Nat.and_one_is_mod] at h
    omega

theorem evenLoop_gcd (c : ℕ) (hc : c % 2 = 1) :
    ∀ a : ℕ, 0 < a → Nat.gcd (evenLoop a) c = Nat.gcd a c := by
  intro a
  induction a using evenLoop.induct with
  | case1 a h ih =>
    intro _
    rw [evenLoop, dif_pos h]
    have h2 : a % 2 = 0 := by
      have := Nat.and_one_is_mod a
      omega
    rw [ih (by omega)]
    have hsplit : a = 2 * (a / 2) := by omega
    conv_rhs => rw [hsplit]
    rw [Nat.Coprime.gcd_mul_left_cancel]
    exact Nat.coprime_two_left.mpr (Nat.odd_iff.mpr hc)
  | case2 a h =>
    intro _
    rw [evenLoop, dif_neg h]

theorem shiftLoop_spec (a b s : ℕ) : 0 < a → 0 < b →
    0 < (shiftLoop a b s).1 ∧ 0 < (shiftLoop a b s).2.1 ∧
    ¬((shiftLoop a b s).1 % 2 = 0 ∧ (shiftLoop a b s).2.1 % 2 = 0) ∧
    ∃ k : ℕ, (shiftLoop a b s).2.2 = s + k ∧
      a = 2 ^ k * (shiftLoop a b s).1 ∧ b = 2 ^ k * (shiftLoop a b s).2.1 := by
  induction a, b, s using shiftLoop.induct with
  | case1 a b s h ih =>
    intro _ hb
    rw [shiftLoop, dif_pos h]
    have heven : a % 2 = 0 ∧ b % 2 = 0 := by
      have h1 := Nat.and_one_is_mod (a ||| b)
      have h2 := @Nat.or_mod_two_eq_one a b
      omega
    obtain ⟨h1, h2, h3, k, hk1, hk2, hk3⟩ := ih (by omega) (by omega)
    refine ⟨h1, h2, h3, k + 1, by omega, ?_, ?_⟩
    · have he : 2 ^ (k + 1) * (shiftLoop (a / 2) (b / 2) (s + 1)).1
          = 2 * (a / 2) := by
        conv_rhs => rw [hk2]
        rw [pow_succ]
        ring
      omega
    · have he : 2 ^ (k + 1) * (shiftLoop (a / 2) (b / 2) (s + 1)).2.1
          = 2 * (b / 2) := by
        conv_rhs => rw [hk3]
        rw [pow_succ]
        ring
      omega
  | case2 a b s h =>
    intro ha hb
    rw [shiftLoop, dif_neg h]
    refine ⟨ha, hb, ?_, 0, by simp, by simp, by simp⟩
    intro hcon
    have h1 : a % 2 = 0 := by simpa using hcon.1
    have h2 : b % 2 = 0 := by simpa using hcon.2
    have h3 := Nat.and_one_is_mod (a ||| b)
    have h4 := @Nat.or_mod_two_eq_one a b
    omega

theorem subLoop_spec (a b : ℕ) : a % 2 = 1 → 0 < a → 0 < b →
    subLoop a b = Nat.gcd a b := by
  induction a, b using subLoop.induct with
  | case1 a b h hgt hz =>
    intro hodd ha hb
    omega
  | case2 a b h hgt hz ih =>
    intro hodd ha hb
    rw [subLoop, dif_pos h, if_pos hgt, if_neg hz]
    have hb1odd : (evenLoop b) % 2 = 1 := evenLoop_odd b hb
    have hb1pos : 0 < evenLoop b := evenLoop_pos b hb
    rw [ih hb1odd hb1pos (by omega)]
    rw [Nat.gcd_sub_self_right (by omega : evenLoop b ≤ a)]
    rw [Nat.gcd_comm a b]
    exact evenLoop_gcd a hodd b hb
  | case3 a b h hgt hz =>
    intro hodd ha hb
    rw [subLoop, dif_pos h, if_neg hgt, if_pos hz]
    have heq : evenLoop b = a := by omega
    have := evenLoop_gcd a hodd b hb
    rw [heq, Nat.gcd_self] at this
    rw [Nat.gcd_comm a b, ← this]
  | case4 a b h hgt hz ih =>
    intro hodd ha hb
    rw [subLoop, dif_pos h, if_neg hgt, if_neg hz]
    have hb1odd : (evenLoop b) % 2 = 1 := evenLoop_odd b hb
    have hb1pos : 0 < evenLoop b := evenLoop_pos b hb
    rw [ih hodd ha (by omega)]
    rw [Nat.gcd_sub_self_right (by omega : a ≤ evenLoop b)]
    rw [Nat.gcd_comm a (evenLoop b), Nat.gcd_comm a b]
    exact evenLoop_gcd a hodd b hb
  | case5 a b h =>
    intro hodd ha hb
    exact absurd ⟨ha, hb⟩ h

theorem abs_toNat (a : ℤ) : (abs a).toNat = a.natAbs := by
  rw [abs_eq, Int.abs_eq_natAbs, Int.toNat_natCast]

/-- The embedded binary `gcd` computes the mathematical gcd. -/
theorem gcd_eq (a b : ℤ) : gcd a b = (Int.gcd a b : ℤ) := by
  unfold gcd
  simp only [abs_toNat]
  by_cases ha : a.natAbs = 0
  · rw [if_pos ha]
    have : a = 0 := Int.natAbs_eq_zero.mp ha
    subst this
    rw [Int.gcd_zero_left]
  · rw [if_neg ha]
    by_cases hb : b.natAbs = 0
    · rw [if_pos hb]
      have : b = 0 := Int.natAbs_eq_zero.mp hb
      subst this
      rw [Int.gcd_zero_right]
    · rw [if_neg hb]
      obtain ⟨h1, h2, h3, k, hk1, hk2, hk3⟩ :=
        shiftLoop_spec a.natAbs b.natAbs 0 (by omega) (by omega)
      set t := shiftLoop a.natAbs b.natAbs 0 with ht
      have ha2odd : (evenLoop t.1) % 2 = 1 := evenLoop_odd t.1 h1
      have ha2pos : 0 < evenLoop t.1 := evenLoop_pos t.1 h1
      have hsub : subLoop (evenLoop t.1) t.2.1 = Nat.gcd (evenLoop t.1) t.2.1 :=
        subLoop_spec _ _ ha2odd ha2pos h2
      have hstr : Nat.gcd (evenLoop t.1) t.2.1 = Nat.gcd t.1 t.2.1 := by
        rcases Nat.even_or_odd t.1 with he | ho
        · have hodd21 : t.2.1 % 2 = 1 := by
            have := Nat.even_iff.mp he
            omega
          exact evenLoop_gcd t.2.1 hodd21 t.1 h1
        · rw [evenLoop_odd_id (Nat.odd_iff.mp ho)]
      have hmain : Int.gcd a b = 2 ^ k * Nat.gcd t.1 t.2.1 := by
        rw [Int.gcd_eq_natAbs, hk2, hk3, Nat.gcd_mul_left]
      rw [Nat.shiftLeft_eq, hsub, hstr, hk1, hmain]
      push_cast
      ring

/-- The embedded `lcm` computes the mathematical lcm (on nonnegative
inputs, which is how the library uses it). -/
theorem lcm_eq (a b : ℤ) (ha : 0 ≤ a) (hb : 0 ≤ b) :
    lcm a b = (Int.lcm a b : ℤ) := by
  unfold lcm
  by_cases h0 : a = 0 ∧ b = 0
  · rw [if_pos h0, h0.1, h0.2]
    simp [Int.lcm]
  · rw [if_neg h0, gcd_eq]
    have habs : abs (a * b) = a * b := by
      rw [abs_eq]
      exact abs_of_nonneg (by positivity)
    rw [habs]
    have hmul : a * b = (Int.gcd a b : ℤ) * (Int.lcm a b : ℤ) := by
      have := Int.gcd_mul_lcm a b
      have hnn : (a * b).natAbs = a * b := Int.natAbs_of_nonneg (by positivity)
      rw [← hnn]
      exact_mod_cast this.symm
    rw [hmul, Int.mul_ediv_cancel_left]
    have hgne : Int.gcd a b ≠ 0 := by
      rw [Int.gcd_eq_natAbs, Ne, Nat.gcd_eq_zero_iff]
      intro hcon
      exact h0 ⟨Int.natAbs_eq_zero.mp hcon.1, Int.natAbs_eq_zero.mp hcon.2⟩
    exact_mod_cast hgne


/-! ## Claim C3 and C4 -/

/-- C3: for every base `b`, exponent `e ≥ 0` and modulus `n > 0`, `modPow`
returns the canonical residue of `b ^ e` modulo `n`, an integer in the
interval `[0, n)`; in particular `modPow b e 1 = 0` for every `b` and
every exponent. -/
theorem modPow_canonical (b e n : ℤ) (he : 0 ≤ e) (hn : 0 < n) :
    modPow b e n = some (b ^ e.toNat % n) ∧
    0 ≤ b ^ e.toNat % n ∧ b ^ e.toNat % n < n ∧
    (∀ e2 : ℤ, modPow b e2 1 = some 0) := by
  refine ⟨modPow_spec he hn, Int.emod_nonneg _ (by omega),
    Int.emod_lt_of_pos _ hn, ?_⟩
  intro e2
  rw [modPow]
  norm_num

theorem modPow_canonical_witness :
    modPow 7 3 5 = some 3 ∧ modPow 7 (-2) 1 = some 0 := by
  have h1 := modPow_canonical 7 3 5 (by norm_num) (by norm_num)
  constructor
  · rw [h1.1]
    decide
  · exact h1.2.2.2 (-2)

/-- C4: for positive `a, b`, `eGcd` returns `(g, x, y)` with
`a*x + b*y = g = gcd a b` (the library's binary gcd, which equals the
mathematical gcd by `gcd_eq`); for `a ≤ 0` or `b ≤ 0` it throws a domain
error (`none`) instead of returning. -/
theorem eGcd_correct (a b : ℤ) :
    (a ≤ 0 ∨ b ≤ 0 → eGcd a b = none) ∧
    (0 < a → 0 < b → ∃ x y : ℤ,
      eGcd a b = some (gcd a b, x, y) ∧ a * x + b * y = gcd a b) := by
  constructor
  · intro h
    unfold eGcd
    rw [if_pos h]
  · intro ha hb
    obtain ⟨x, y, heq, hbez⟩ := eGcd_pos a b ha hb
    rw [gcd_eq]
    exact ⟨x, y, heq, by rw [hbez]⟩

theorem eGcd_correct_witness :
    eGcd 0 5 = none ∧
    ∃ x y : ℤ, eGcd 3 4 = some (gcd 3 4, x, y) ∧ 3 * x + 4 * y = gcd 3 4 :=
  ⟨(eGcd_correct 0 5).1 (Or.inl le_rfl),
    (eGcd_correct 3 4).2 (by norm_num) (by norm_num)⟩


/-! ## SecureRandom: byte-level model of randBytesSync / randBitsSync

The platform CSPRNG is an external collaborator: we model a draw as an
arbitrary byte sequence of the requested length, and characterise the set
of values an operation *can* return. -/

/-- `fromBuffer(buf)` from esm.js: big-endian assembly
`ret = (ret << 8n) + bi` over the bytes. -/
def fromBuffer (buf : List ℕ) : ℕ :=
  buf.foldl (fun ret bi => ret * 256 + bi) 0

/-- A possible output of `randBytesSync(byteLength, false)`: any sequence
of `byteLength` bytes. -/
def validBytes (byteLength : ℕ) (l : List ℕ) : Prop :=
  l.length = byteLength ∧ ∀ x ∈ l, x < 256

/-- The head-byte transformation of `randBitsSync(bitLength, forceLength)`
from esm.js: when `bitLength % 8 ≠ 0` the excess top bits are masked off
(`rndBytes[0] &= 2 ** bitLengthMod8 - 1`), and when `forceLength` the most
significant bit is forced to 1 (`rndBytes[0] |= mask`). -/
def maskBits (bitLength : ℕ) (forceLength : Bool) (l : List ℕ) : List ℕ :=
  match l with
  | [] => []
  | b :: t =>
    let bitLengthMod8 := bitLength % 8
    let b1 := if bitLengthMod8 ≠ 0 then b &&& (2 ^ bitLengthMod8 - 1) else b
    let b2 := if forceLength then
        b1 ||| (if bitLengthMod8 ≠ 0 then 2 ^ (bitLengthMod8 - 1) else 128)
      else b1
    b2 :: t

/-- The set of values `fromBuffer(randBitsSync(bitLength, forceLength))`
can produce: `byteLength = Math.ceil(bitLength / 8)` random bytes, the
head masked/forced as in the source.  `bitLength ≥ 1` reflects the
`bitLength MUST be > 0` range check. -/
def randBitsCan (bitLength : ℕ) (forceLength : Bool) (v : ℕ) : Prop :=
  1 ≤ bitLength ∧ ∃ l : List ℕ, validBytes ((bitLength + 7) / 8) l ∧
    v = fromBuffer (maskBits bitLength forceLength l)

/-- The throw condition of `randBetween(max, min)` from esm.js:
`max <= 0n || min < 0n || max <= min`. -/
def randBetweenFails (max min : ℤ) : Prop :=
  max ≤ 0 ∨ min < 0 ∨ max ≤ min

/-- The set of values `randBetween(max, min)` can return: rejection
sampling of `fromBuffer(randBitsSync(bitLength(max - min)))` until
`rnd ≤ interval = max - min`, then `rnd + min`. -/
def randBetweenCan (max min v : ℤ) : Prop :=
  ¬ randBetweenFails max min ∧
  ∃ rnd : ℕ, randBitsCan (bitLength (max - min)) false rnd ∧
    (rnd : ℤ) ≤ max - min ∧ v = (rnd : ℤ) + min

/-- The candidates drawn and tested by `prime(bitLength, iterations)`:
`fromBuffer(randBitsSync(bitLength, true))`, identically in the
single-threaded fallback loop and in the worker-based variant (both the
initial seeds and each re-draw after a composite). -/
def primeCandidateCan (bitLength : ℕ) (v : ℕ) : Prop :=
  randBitsCan bitLength true v

/-- The Miller-Rabin base draw of `_isProbablyPrime`:
`const b = randBetween(d, 2n)` with `d = w - 1`. -/
def mrBaseCan (w b : ℤ) : Prop :=
  randBetweenCan (w - 1) 2 b

/-! ### Bounds on the assembled values -/

theorem fromBuffer_aux (l : List ℕ) (acc : ℕ) :
    l.foldl (fun ret bi => ret * 256 + bi) acc =
      acc * 256 ^ l.length + fromBuffer l := by
  induction l generalizing acc with
  | nil => simp [fromBuffer]
  | cons b t ih =>
    simp only [List.foldl_cons, List.length_cons]
    rw [ih (acc * 256 + b)]
    have hbt : fromBuffer (b :: t) = b * 256 ^ t.length + fromBuffer t := by
      unfold fromBuffer
      simp only [List.foldl_cons]
      rw [show 0 * 256 + b = b by ring]
      exact ih b
    rw [hbt]
    ring

theorem fromBuffer_cons (b : ℕ) (t : List ℕ) :
    fromBuffer (b :: t) = b * 256 ^ t.length + fromBuffer t := by
  unfold fromBuffer
  simp only [List.foldl_cons]
  rw [show 0 * 256 + b = b by ring]
  exact fromBuffer_aux t b

theorem fromBuffer_lt (l : List ℕ) (hl : ∀ x ∈ l, x < 256) :
    fromBuffer l < 256 ^ l.length := by
  induction l with
  | nil => simp [fromBuffer]
  | cons b t ih =>
    rw [fromBuffer_cons, List.length_cons, pow_succ]
    have hb : b < 256 := hl b (by simp)
    have ht := ih (fun x hx => hl x (by simp [hx]))
    calc b * 256 ^ t.length + fromBuffer t
        < b * 256 ^ t.length + 256 ^ t.length := by omega
      _ = (b + 1) * 256 ^ t.length := by ring
      _ ≤ 256 * 256 ^ t.length := by
          have : b + 1 ≤ 256 := by omega
          exact Nat.mul_le_mul_right _ this
      _ = 256 ^ t.length * 256 := by ring

theorem or_pow_bounds (x r : ℕ) (hx : x < 2 ^ r) (hr : 1 ≤ r) :
    2 ^ (r - 1) ≤ x ||| 2 ^ (r - 1) ∧ x ||| 2 ^ (r - 1) < 2 ^ r := by
  have h2r : 2 ^ r = 2 ^ (r - 1) * 2 := by
    rw [← pow_succ]
    congr 1
    omega
  constructor
  · rcases Nat.lt_or_ge x (2 ^ (r - 1)) with h | h
    · have heq : 2 ^ (r - 1) * 1 + x = 2 ^ (r - 1) * 1 ||| x :=
        Nat.mul_add_lt_is_or h 1
      rw [Nat.or_comm]
      rw [mul_one] at heq
      rw [show ((2:ℕ) ^ (r - 1) ||| x) = 2 ^ (r - 1) + x from heq.symm]
      omega
    · have hb : x - 2 ^ (r - 1) < 2 ^ (r - 1) := by omega
      have heq : 2 ^ (r - 1) * 1 + (x - 2 ^ (r - 1)) =
          2 ^ (r - 1) * 1 ||| (x - 2 ^ (r - 1)) := Nat.mul_add_lt_is_or hb 1
      rw [mul_one] at heq
      have hx2 : x ||| 2 ^ (r - 1) = x := by
        conv_lhs =>
          rw [show x = 2 ^ (r - 1) ||| (x - 2 ^ (r - 1)) by
            rw [← heq]; omega]
        rw [Nat.or_comm (2 ^ (r - 1)) _, Nat.or_assoc, Nat.or_self]
        rw [Nat.or_comm, ← heq]
        omega
      rw [hx2]
      exact h
  · refine Nat.or_lt_two_pow hx ?_
    have hp : 0 < 2 ^ (r - 1) := pow_pos (by norm_num) _
    omega

theorem assemble_bounds (hd : ℕ) (t : List ℕ) (r : ℕ)
    (ht : ∀ x ∈ t, x < 256) (h1 : 2 ^ (r - 1) ≤ hd) (h2 : hd < 2 ^ r)
    (hr : 1 ≤ r) :
    2 ^ (r + 8 * t.length - 1) ≤ fromBuffer (hd :: t) ∧
      fromBuffer (hd :: t) < 2 ^ (r + 8 * t.length) := by
  rw [fromBuffer_cons]
  have h256 : (256 : ℕ) ^ t.length = 2 ^ (8 * t.length) := by
    rw [show (256 : ℕ) = 2 ^ 8 from by norm_num, ← pow_mul]
  constructor
  · calc 2 ^ (r + 8 * t.length - 1) = 2 ^ (r - 1) * 2 ^ (8 * t.length) := by
          rw [← pow_add]
          congr 1
          omega
      _ ≤ hd * 2 ^ (8 * t.length) := Nat.mul_le_mul_right _ h1
      _ = hd * 256 ^ t.length := by rw [h256]
      _ ≤ hd * 256 ^ t.length + fromBuffer t := Nat.le_add_right _ _
  · have hft := fromBuffer_lt t ht
    calc hd * 256 ^ t.length + fromBuffer t
        < hd * 256 ^ t.length + 256 ^ t.length := by omega
      _ = (hd + 1) * 256 ^ t.length := by ring
      _ ≤ 2 ^ r * 256 ^ t.length := Nat.mul_le_mul_right _ (by omega)
      _ = 2 ^ (r + 8 * t.length) := by rw [h256, ← pow_add]

theorem maskBits_true_cons (bitLen b : ℕ) (t : List ℕ) :
    maskBits bitLen true (b :: t) =
      ((if bitLen % 8 ≠ 0 then b &&& (2 ^ (bitLen % 8) - 1) else b) |||
        (if bitLen % 8 ≠ 0 then 2 ^ (bitLen % 8 - 1) else 128)) :: t := by
  simp [maskBits]

/-- Any value `randBitsSync(bitLength, true)` can produce has exactly
`bitLength` bits: the masking keeps it below `2 ^ bitLength` and the
forced top bit keeps it at or above `2 ^ (bitLength - 1)`. -/
theorem randBitsCan_forced_bounds {bitLen v : ℕ}
    (h : randBitsCan bitLen true v) :
    2 ^ (bitLen - 1) ≤ v ∧ v < 2 ^ bitLen := by
  obtain ⟨hb1, l, ⟨hlen, hbytes⟩, hv⟩ := h
  cases l with
  | nil =>
    exfalso
    simp only [List.length_nil] at hlen
    omega
  | cons b t =>
    simp only [List.length_cons] at hlen
    rw [maskBits_true_cons] at hv
    have hbb : b < 256 := hbytes b (by simp)
    have htb : ∀ x ∈ t, x < 256 := fun x hx => hbytes x (by simp [hx])
    by_cases hm : bitLen % 8 = 0
    · rw [if_neg (by omega), if_neg (by omega)] at hv
      have hor := or_pow_bounds b 8 (by omega) (by omega)
      have h128 : (128 : ℕ) = 2 ^ (8 - 1) := by norm_num
      rw [h128] at hv
      have hbits : bitLen = 8 + 8 * t.length := by omega
      have hres := assemble_bounds (b ||| 2 ^ (8 - 1)) t 8 htb hor.1 hor.2
        (by omega)
      rw [← hv, ← hbits] at hres
      exact hres
    · rw [if_pos (by omega), if_pos (by omega)] at hv
      set r := bitLen % 8 with hrdef
      have hmask : b &&& (2 ^ r - 1) < 2 ^ r := by
        have h5 := Nat.and_le_right (n := b) (m := 2 ^ r - 1)
        have hpos : 0 < 2 ^ r := pow_pos (by norm_num) _
        omega
      have hor := or_pow_bounds (b &&& (2 ^ r - 1)) r hmask (by omega)
      have hbits : bitLen = r + 8 * t.length := by omega
      have hres := assemble_bounds (b &&& (2 ^ r - 1) ||| 2 ^ (r - 1)) t r htb
        hor.1 hor.2 (by omega)
      rw [← hv, ← hbits] at hres
      exact hres

theorem bitLength_two : bitLength 2 = 2 := by
  rw [bitLength]
  norm_num
  rw [bitLengthLoop]
  norm_num

theorem bitLength_1598 : bitLength 1598 = 11 := by
  rw [bitLength]
  norm_num
  rw [bitLengthLoop]
  norm_num
  rw [bitLengthLoop]
  norm_num
  rw [bitLengthLoop]
  norm_num
  rw [bitLengthLoop]
  norm_num
  rw [bitLengthLoop]
  norm_num
  rw [bitLengthLoop]
  norm_num
  rw [bitLengthLoop]
  norm_num
  rw [bitLengthLoop]
  norm_num
  rw [bitLengthLoop]
  norm_num
  rw [bitLengthLoop]
  norm_num

/-- Concrete draw: `randBetween(4, 2)` can return `4` (the maximum is
inclusive). -/
theorem randBetweenCan_best : randBetweenCan 4 2 4 := by
  refine ⟨by unfold randBetweenFails; omega, 2, ?_, by norm_num, by norm_num⟩
  have h4 : (4:ℤ) - 2 = 2 := by norm_num
  rw [h4, bitLength_two]
  exact ⟨by norm_num, [2], ⟨by decide, by decide⟩, by decide⟩

/-! ## Claim C8 -/

/-- C8: `randBetween(max, min)` throws a domain error exactly when
`max ≤ min` or `min < 0`; any value the rejection-sampling loop can
return satisfies `min ≤ v ≤ max` (the loop only accepts draws
`rnd ≤ max - min` and returns `rnd + min`). -/
theorem randBetween_correct (max min : ℤ) :
    (randBetweenFails max min ↔ (max ≤ min ∨ min < 0)) ∧
    ∀ v, randBetweenCan max min v → min ≤ v ∧ v ≤ max := by
  constructor
  · unfold randBetweenFails
    omega
  · intro v hcan
    obtain ⟨hnf, rnd, hbits, hle, hv⟩ := hcan
    have h0 : (0:ℤ) ≤ (rnd : ℤ) := Int.natCast_nonneg rnd
    omega

theorem randBetween_correct_witness :
    (randBetweenFails 2 4 ↔ ((2:ℤ) ≤ 4 ∨ (4:ℤ) < 0)) ∧
    (2 ≤ (4:ℤ) ∧ (4:ℤ) ≤ 4) :=
  ⟨(randBetween_correct 2 4).1, (randBetween_correct 4 2).2 4 randBetweenCan_best⟩

/-! ## Claim C6 -/

/-- C6 (amended): every candidate drawn and tested by
`prime(bitLength, iterations)` — in the single-threaded fallback as well
as the parallel worker variant — has exactly `bitLength` bits, its top
bit forced to 1.  The bottom bit is NOT forced, so candidates need not be
odd (see the counterexample). -/
theorem primeCandidate_bits {bitLen v : ℕ} (h : primeCandidateCan bitLen v) :
    2 ^ (bitLen - 1) ≤ v ∧ v < 2 ^ bitLen :=
  randBitsCan_forced_bounds h

/-- An even candidate (`2`, of exactly 2 bits) is drawable and tested by
the prime search at `bitLength = 2`: `randBitsSync` masks the head byte
`2` to `2 &&& 3 = 2` and forces the top bit, `2 ||| 2 = 2`. -/
theorem primeCandidate_even : primeCandidateCan 2 2 ∧ 2 % 2 = 0 :=
  ⟨⟨by norm_num, [2], ⟨by decide, by decide⟩, by decide⟩, rfl⟩

theorem primeCandidate_bits_witness :
    primeCandidateCan 2 3 ∧ 2 ^ (2 - 1) ≤ 3 ∧ 3 < 2 ^ 2 := by
  have hc : primeCandidateCan 2 3 :=
    ⟨by norm_num, [3], ⟨by decide, by decide⟩, by decide⟩
  exact ⟨hc, (primeCandidate_bits hc).1, (primeCandidate_bits hc).2⟩

/-! ## Claim C5 -/

/-- C5: the Miller-Rabin base draw `randBetween(d, 2n)` with `d = w - 1`
can return `b = w - 1`, because `randBetween`'s maximum is inclusive;
this contradicts the claimed range `2 ≤ b ≤ w - 2` (and the FIPS 186-4
step 4.2 quoted in the source, which demands a redraw for `b ≥ w - 1`).
Concretely, for the Miller-Rabin candidate `w = 1601` the base `1600` is
drawable: the two random bytes `[6, 62]` assemble to `rnd = 1598 ≤
interval = 1598`, giving `b = 1598 + 2 = 1600 > w - 2`. -/
theorem mrBase_out_of_range : mrBaseCan 1601 1600 ∧ ¬ ((1600:ℤ) ≤ 1601 - 2) := by
  constructor
  · unfold mrBaseCan
    refine ⟨by unfold randBetweenFails; omega, 1598, ?_, by norm_num, by norm_num⟩
    have h4 : (1601:ℤ) - 1 - 2 = 1598 := by norm_num
    rw [h4, bitLength_1598]
    exact ⟨by norm_num, [6, 62], ⟨by decide, by decide⟩, by decide⟩
  · norm_num


/-! ## RSA (`src/dist/cjs/index.node.cjs` / esm.js classes) -/

/-- `RSAPublicKey` class: fields `e`, `n`. -/
structure RSAPublicKey where
  e : ℤ
  n : ℤ

/-- `RSAPrivateKey` class: field `d` and a reference to the public key. -/
structure RSAPrivateKey where
  d : ℤ
  pubKey : RSAPublicKey

/-- `RSAPublicKey.encrypt(m)`: `modPow(m, this.e, this.n)`. -/
def RSAPublicKey.encrypt (k : RSAPublicKey) (m : ℤ) : Option ℤ :=
  modPow m k.e k.n

/-- `RSAPublicKey.verify(s)`: `modPow(s, this.e, this.n)`. -/
def RSAPublicKey.verify (k : RSAPublicKey) (s : ℤ) : Option ℤ :=
  modPow s k.e k.n

/-- `RSAPrivateKey.decrypt(c)`: `modPow(c, this.d, this.pubKey.getModN())`. -/
def RSAPrivateKey.decrypt (k : RSAPrivateKey) (c : ℤ) : Option ℤ :=
  modPow c k.d k.pubKey.n

/-- `RSAPrivateKey.sign(h)`: `modPow(h, this.d, this.pubKey.getModN())`. -/
def RSAPrivateKey.sign (k : RSAPrivateKey) (h : ℤ) : Option ℤ :=
  modPow h k.d k.pubKey.n

/-! ### Fermat / CRT machinery -/

/-- Fermat-based exponent cycling: if `(p-1) ∣ (k-1)` with `k ≥ 1`, then
`m ^ k ≡ m (mod p)` for every integer `m`. -/
theorem fermat_pow_cycle {p : ℕ} (hp : p.Prime) {k : ℕ} (hk : 1 ≤ k)
    (hdvd : (p - 1) ∣ (k - 1)) (m : ℤ) : m ^ k ≡ m [ZMOD (p : ℤ)] := by
  haveI : Fact p.Prime := ⟨hp⟩
  have hcast : ((m ^ k : ℤ) : ZMod p) = ((m : ℤ) : ZMod p) := by
    push_cast
    by_cases hm : (m : ZMod p) = 0
    · rw [hm, zero_pow (by omega)]
    · obtain ⟨t, ht⟩ := hdvd
      have hkk : k = (p - 1) * t + 1 := by omega
      rw [hkk, pow_add, pow_mul, ZMod.pow_card_sub_one_eq_one hm]
      simp
  exact_mod_cast (ZMod.intCast_eq_intCast_iff _ _ _).mp hcast

/-- The RSA exponent identity modulo `p * q` for distinct primes:
if `(p-1)(q-1) ∣ k - 1` and `k ≥ 1` then `m ^ k ≡ m (mod p*q)`. -/
theorem rsa_core {p q : ℕ} (hp : p.Prime) (hq : q.Prime) (hpq : p ≠ q)
    {k : ℕ} (hk : 1 ≤ k) (hdvd : (p - 1) * (q - 1) ∣ (k - 1)) (m : ℤ) :
    m ^ k ≡ m [ZMOD ((p * q : ℕ) : ℤ)] := by
  have hcop : Nat.Coprime p q := (Nat.coprime_primes hp hq).mpr hpq
  have hcop2 : (p : ℤ).natAbs.Coprime (q : ℤ).natAbs := by
    simpa using hcop
  have h1 : m ^ k ≡ m [ZMOD (p : ℤ)] :=
    fermat_pow_cycle hp hk (dvd_trans (Dvd.intro _ rfl) hdvd) m
  have h2 : m ^ k ≡ m [ZMOD (q : ℤ)] :=
    fermat_pow_cycle hq hk (dvd_trans (Dvd.intro_left _ rfl) hdvd) m
  have := (Int.modEq_and_modEq_iff_modEq_mul hcop2).mp ⟨h1, h2⟩
  exact_mod_cast this

/-! ## Claim C1 -/

/-- C1 (amended): for every RSA key pair built from DISTINCT probable
primes `p ≠ q` — `n = p*q`, `d = modInv(e, (p-1)*(q-1))`, `e ≥ 0` — and
every message `0 ≤ m < n`, `decrypt(encrypt(m)) = m` and
`verify(sign(m)) = m`. -/
theorem rsa_roundtrip {p q : ℕ} (hp : p.Prime) (hq : q.Prime) (hpq : p ≠ q)
    {e d n phi m : ℤ}
    (hn : n = (p : ℤ) * q) (hphi : phi = ((p : ℤ) - 1) * ((q : ℤ) - 1))
    (he : 0 ≤ e) (hd : modInv e phi = some d)
    (hm : 0 ≤ m) (hmn : m < n) :
    ((RSAPublicKey.mk e n).encrypt m).bind
        (RSAPrivateKey.mk d (RSAPublicKey.mk e n)).decrypt = some m ∧
    ((RSAPrivateKey.mk d (RSAPublicKey.mk e n)).sign m).bind
        (RSAPublicKey.mk e n).verify = some m := by
  obtain ⟨hphipos, hd0, hdphi, hinv⟩ := modInv_spec hd
  have hp2 : 2 ≤ p := hp.two_le
  have hq2 : 2 ≤ q := hq.two_le
  have hn1 : 1 < n := by
    rw [hn]
    have : (2:ℤ) ≤ p := by exact_mod_cast hp2
    have : (2:ℤ) ≤ q := by exact_mod_cast hq2
    nlinarith
  have hphi2 : 2 ≤ phi := by
    rw [hphi]
    rcases Nat.lt_or_ge 2 p with hpg | hpl
    · have h3 : (3:ℤ) ≤ p := by exact_mod_cast hpg
      have h1 : (1:ℤ) ≤ q - 1 := by
        have : (2:ℤ) ≤ q := by exact_mod_cast hq2
        omega
      nlinarith
    · have hp2' : p = 2 := by omega
      have hq3 : 3 ≤ q := by
        have hne2 : q ≠ 2 := fun hcon => hpq (by omega)
        omega
      have h3 : (3:ℤ) ≤ q := by exact_mod_cast hq3
      rw [hp2']
      push_cast
      nlinarith
  -- the combined exponent
  set eN := e.toNat with heN
  set dN := d.toNat with hdN
  have heD : e = (eN : ℤ) := by omega
  have hdD : d = (dN : ℤ) := by omega
  have hk1 : 1 ≤ eN * dN := by
    by_contra hcon
    push_neg at hcon
    have h0 : eN * dN = 0 := by omega
    have hed0 : e * d = 0 := by
      rcases Nat.mul_eq_zero.mp h0 with h | h
      · rw [heD, h]
        simp
      · rw [hdD, h]
        simp
    have hmod01 : (0:ℤ) ≡ 1 [ZMOD phi] := by
      rw [← hed0]
      exact hinv
    have hdvd1 := Int.modEq_iff_dvd.mp hmod01
    simp only [sub_zero] at hdvd1
    have := Int.le_of_dvd (by norm_num) hdvd1
    omega
  have hdvdk : (p - 1) * (q - 1) ∣ (eN * dN - 1) := by
    have hdvdZ : phi ∣ (e * d - 1) := by
      have h6 := Int.modEq_iff_dvd.mp hinv.symm
      simpa using h6
    have hp1 : 1 ≤ p := by omega
    have hq1 : 1 ≤ q := by omega
    have hphiN : (((p - 1) * (q - 1) : ℕ) : ℤ) = phi := by
      rw [hphi]
      push_cast [Nat.cast_sub hp1, Nat.cast_sub hq1]
      ring
    have hsub : ((eN * dN - 1 : ℕ) : ℤ) = e * d - 1 := by
      rw [heD, hdD]
      push_cast [Nat.cast_sub hk1]
      ring
    rw [← Int.natCast_dvd_natCast, hphiN, hsub]
    exact hdvdZ
  have hcore := rsa_core hp hq hpq hk1 hdvdk m
  have hnpq : n = ((p * q : ℕ) : ℤ) := by
    rw [hn]
    push_cast
    ring
  have hmod : m ^ (eN * dN) % n = m := by
    have h7 : m ^ (eN * dN) % n = m % n := by
      rw [hnpq]
      exact hcore
    rw [h7, Int.emod_eq_of_lt hm hmn]
  constructor
  · simp only [RSAPublicKey.encrypt, RSAPrivateKey.decrypt]
    rw [modPow_spec he (by omega : (0:ℤ) < n), Option.some_bind,
      modPow_spec (by omega : (0:ℤ) ≤ d) (by omega : (0:ℤ) < n)]
    congr 1
    have h9 : (m ^ eN % n) ^ dN % n = (m ^ eN) ^ dN % n :=
      Int.ModEq.pow dN (Int.emod_emod_of_dvd _ dvd_rfl)
    rw [← heN, ← hdN, h9, ← pow_mul, hmod]
  · simp only [RSAPrivateKey.sign, RSAPublicKey.verify]
    rw [modPow_spec (by omega : (0:ℤ) ≤ d) (by omega : (0:ℤ) < n),
      Option.some_bind, modPow_spec he (by omega : (0:ℤ) < n)]
    congr 1
    have h9 : (m ^ dN % n) ^ eN % n = (m ^ dN) ^ eN % n :=
      Int.ModEq.pow eN (Int.emod_emod_of_dvd _ dvd_rfl)
    rw [← heN, ← hdN, h9, ← pow_mul, Nat.mul_comm, hmod]

/-- A key pair that satisfies every validity condition of the claim as
stated (probable primes `p`, `q`, `d = modInv(e, (p-1)*(q-1))`) but with
`p = q = 3`: the message `m = 3` encrypts to `0` and decrypts to `0 ≠ 3`,
so the round-trip contract fails without the distinctness amendment. -/
theorem rsa_roundtrip_p_eq_q :
    Nat.Prime 3 ∧ (9:ℤ) = 3 * 3 ∧
    modInv 3 (((3:ℤ) - 1) * ((3:ℤ) - 1)) = some 3 ∧
    (0:ℤ) ≤ 3 ∧ (3:ℤ) < 9 ∧
    ((RSAPublicKey.mk 3 9).encrypt 3).bind
      (RSAPrivateKey.mk 3 (RSAPublicKey.mk 3 9)).decrypt = some 0 ∧
    (some (0:ℤ) ≠ some (3:ℤ)) := by
  refine ⟨by norm_num, by norm_num, ?_, by norm_num, by norm_num, ?_, by simp⟩
  · have h4 : ((3:ℤ) - 1) * ((3:ℤ) - 1) = 4 := by norm_num
    rw [h4]
    exact modInv_eq (by norm_num) (by norm_num) (by norm_num) (by decide)
  · simp only [RSAPublicKey.encrypt, RSAPrivateKey.decrypt]
    rw [modPow_spec (by norm_num : (0:ℤ) ≤ 3) (by norm_num : (0:ℤ) < 9)]
    rw [Option.some_bind]
    rw [modPow_spec (by norm_num : (0:ℤ) ≤ 3) (by norm_num : (0:ℤ) < 9)]
    decide

theorem rsa_roundtrip_witness :
    modInv 3 (((3:ℤ) - 1) * ((5:ℤ) - 1)) = some 3 ∧
    ((RSAPublicKey.mk 3 15).encrypt 7).bind
        (RSAPrivateKey.mk 3 (RSAPublicKey.mk 3 15)).decrypt = some 7 ∧
    ((RSAPrivateKey.mk 3 (RSAPublicKey.mk 3 15)).sign 7).bind
        (RSAPublicKey.mk 3 15).verify = some 7 := by
  have hd : modInv 3 (((3:ℤ) - 1) * ((5:ℤ) - 1)) = some 3 := by
    have h8 : ((3:ℤ) - 1) * ((5:ℤ) - 1) = 8 := by norm_num
    rw [h8]
    exact modInv_eq (by norm_num) (by norm_num) (by norm_num) (by decide)
  have h := @rsa_roundtrip 3 5 (by norm_num) (by norm_num) (by norm_num)
    3 3 15 (((3:ℤ) - 1) * ((5:ℤ) - 1)) 7
    (by norm_num) rfl (by norm_num) hd
    (by norm_num : (0:ℤ) ≤ 7) (by norm_num : (7:ℤ) < 15)
  exact ⟨hd, h.1, h.2⟩


/-! ## Paillier (`src/dist/cjs/index.node.cjs`) -/

/-- `PaillierPublicKey` class: fields `n`, `n2`, `g`. -/
structure PaillierPublicKey where
  n : ℤ
  n2 : ℤ
  g : ℤ

/-- `PaillierPrivateKey` class: fields `lambda`, `mu` and a reference to
the public key. -/
structure PaillierPrivateKey where
  lambda : ℤ
  mu : ℤ
  pubKey : PaillierPublicKey

/-- `PaillierPublicKey.encrypt(m)`: draws `r = randBetween(this.n2)` and
returns `(modPow(g, m, n2) * modPow(r, n, n2)) % n2`.  The randomness `r`
is passed explicitly.  Both factors are canonical residues, hence
nonnegative, so the JS truncating `%` agrees with `%`. -/
def PaillierPublicKey.encrypt (k : PaillierPublicKey) (m r : ℤ) : Option ℤ :=
  (modPow k.g m k.n2).bind fun a =>
    (modPow r k.n k.n2).map fun b => (a * b) % k.n2

/-- `PaillierPublicKey.add(cs)`: `ret = 1n; for (c of cs) ret *= c;
return ret % n2` with the JS truncating remainder (`Int.tmod`; a caller
may pass negative ciphertexts). -/
def PaillierPublicKey.add (k : PaillierPublicKey) (cs : List ℤ) : ℤ :=
  Int.tmod (cs.foldl (fun ret c => ret * c) 1) k.n2

/-- `PaillierPublicKey.multiply(c, m)`: `modPow(c, m, n2)`. -/
def PaillierPublicKey.multiply (k : PaillierPublicKey) (c m : ℤ) : Option ℤ :=
  modPow c m k.n2

/-- `L(x, n) = (x - 1n) / n` with the JS truncating division
(`Int.tdiv`; `x = 0` would give `(-1)/n = 0` under truncation). -/
def L (x n : ℤ) : ℤ :=
  Int.tdiv (x - 1) n

/-- `PaillierPrivateKey.decrypt(c)`:
`(L(modPow(c, lambda, n2), n) * mu) % n` with the JS truncating
remainder. -/
def PaillierPrivateKey.decrypt (k : PaillierPrivateKey) (c : ℤ) : Option ℤ :=
  (modPow c k.lambda k.pubKey.n2).map fun x =>
    Int.tmod (L x k.pubKey.n * k.mu) k.pubKey.n

/-! ### Carmichael-style lemmas -/

/-- If `(p-1) ∣ t` and `a` is invertible mod the prime `p`, then
`a ^ t ≡ 1 (mod p)`. -/
theorem fermat_pow_one {p : ℕ} (hp : p.Prime) {t : ℕ} (hdvd : (p - 1) ∣ t)
    (a : ℤ) (ha : IsCoprime a (p : ℤ)) : a ^ t ≡ 1 [ZMOD (p : ℤ)] := by
  haveI : Fact p.Prime := ⟨hp⟩
  have hne : (a : ZMod p) ≠ 0 := by
    obtain ⟨u, v, huv⟩ := ha
    intro h0
    have hcast : ((u * a + v * p : ℤ) : ZMod p) = ((1 : ℤ) : ZMod p) := by
      rw [huv]
    push_cast at hcast
    rw [h0, ZMod.natCast_self] at hcast
    simp at hcast
  have hcast : ((a ^ t : ℤ) : ZMod p) = ((1 : ℤ) : ZMod p) := by
    push_cast
    obtain ⟨s, hs⟩ := hdvd
    rw [hs, pow_mul, ZMod.pow_card_sub_one_eq_one hne, one_pow]
  exact (ZMod.intCast_eq_intCast_iff _ _ _).mp hcast

/-- Carmichael-type identity for `n = p*q`: any `a` invertible mod `n`
satisfies `a ^ lcm(p-1, q-1) ≡ 1 (mod n)`. -/
theorem pow_lcm_one {p q : ℕ} (hp : p.Prime) (hq : q.Prime) (hpq : p ≠ q)
    (a : ℤ) (ha : IsCoprime a ((p : ℤ) * q)) :
    a ^ (Nat.lcm (p - 1) (q - 1)) ≡ 1 [ZMOD ((p : ℤ) * q)] := by
  have hap : IsCoprime a (p : ℤ) := IsCoprime.of_isCoprime_of_dvd_right ha ⟨q, rfl⟩
  have haq : IsCoprime a (q : ℤ) := IsCoprime.of_isCoprime_of_dvd_right ha ⟨p, by ring⟩
  have h1 : a ^ (Nat.lcm (p - 1) (q - 1)) ≡ 1 [ZMOD (p : ℤ)] :=
    fermat_pow_one hp (Nat.dvd_lcm_left _ _) a hap
  have h2 : a ^ (Nat.lcm (p - 1) (q - 1)) ≡ 1 [ZMOD (q : ℤ)] :=
    fermat_pow_one hq (Nat.dvd_lcm_right _ _) a haq
  have hcop2 : (p : ℤ).natAbs.Coprime (q : ℤ).natAbs := by
    simpa using (Nat.coprime_primes hp hq).mpr hpq
  exact (Int.modEq_and_modEq_iff_modEq_mul hcop2).mp ⟨h1, h2⟩

/-- Binomial: `(1 + k*n) ^ s ≡ 1 + s*k*n (mod n²)`. -/
theorem one_add_mul_pow (n k : ℤ) (s : ℕ) :
    (1 + k * n) ^ s ≡ 1 + (s : ℤ) * k * n [ZMOD n ^ 2] := by
  induction s with
  | zero => simp
  | succ t ih =>
    calc (1 + k * n) ^ (t + 1) = (1 + k * n) ^ t * (1 + k * n) :=
          pow_succ _ _
      _ ≡ (1 + (t : ℤ) * k * n) * (1 + k * n) [ZMOD n ^ 2] :=
          Int.ModEq.mul_right _ ih
      _ ≡ 1 + ((t : ℕ) + 1 : ℤ) * k * n [ZMOD n ^ 2] := by
          rw [Int.modEq_iff_dvd]
          refine ⟨-((t : ℤ) * k * k), ?_⟩
          ring
      _ = 1 + ((t + 1 : ℕ) : ℤ) * k * n := by
          push_cast
          ring

theorem L_exact {x n c : ℤ} (hn : n ≠ 0) (h : x - 1 = n * c) : L x n = c := by
  rw [L, h]
  exact Int.mul_tdiv_cancel_left _ hn

/-! ## Claim C2 -/

/-- C2 (amended): for a Paillier key pair built from distinct primes with
`g` invertible mod `n` and a successfully computed `mu`, and for
encryption randomness `r1, r2` coprime to `n` (the code draws `r`
uniformly from `[1, n2]` without enforcing this), `add` returns the
product of the ciphertexts reduced mod `n2` and
`decrypt(add(encrypt(m1), encrypt(m2))) = (m1 + m2) mod n`. -/
theorem paillier_homomorphic_add
    {p q : ℕ} (hp : p.Prime) (hq : q.Prime) (hpq : p ≠ q)
    {n n2 lam g w mu : ℤ}
    (hn : n = (p : ℤ) * q) (hn2 : n2 = n ^ 2)
    (hlam : lam = lcm ((p : ℤ) - 1) ((q : ℤ) - 1))
    (hg : IsCoprime g n)
    (hw : modPow g lam n2 = some w)
    (hmu : modInv (L w n) n = some mu)
    {m1 m2 r1 r2 : ℤ}
    (hm1 : 0 ≤ m1) (hm1n : m1 < n) (hm2 : 0 ≤ m2) (hm2n : m2 < n)
    (hr1 : IsCoprime r1 n) (hr2 : IsCoprime r2 n)
    {c1 c2 : ℤ}
    (hc1 : (PaillierPublicKey.mk n n2 g).encrypt m1 r1 = some c1)
    (hc2 : (PaillierPublicKey.mk n n2 g).encrypt m2 r2 = some c2) :
    (∀ cs : List ℤ, (∀ c ∈ cs, 0 ≤ c) →
      (PaillierPublicKey.mk n n2 g).add cs = cs.prod % n2) ∧
    (PaillierPrivateKey.mk lam mu (PaillierPublicKey.mk n n2 g)).decrypt
        ((PaillierPublicKey.mk n n2 g).add [c1, c2]) = some ((m1 + m2) % n) := by
  -- basic sizes
  have hp2 : 2 ≤ p := hp.two_le
  have hq2 : 2 ≤ q := hq.two_le
  have hn1 : 1 < n := by
    rw [hn]
    have h1 : (2:ℤ) ≤ p := by exact_mod_cast hp2
    have h2 : (2:ℤ) ≤ q := by exact_mod_cast hq2
    nlinarith
  have hn21 : 1 < n2 := by
    rw [hn2]
    nlinarith
  -- the exponent lambda as a natural number
  set lamN : ℕ := Nat.lcm (p - 1) (q - 1) with hlamN
  have hlamNpos : 0 < lamN := Nat.lcm_pos (by omega) (by omega)
  have hlamcast : lam = (lamN : ℤ) := by
    rw [hlam, lcm_eq _ _ (by push_cast; omega) (by push_cast; omega)]
    congr 1
    rw [Int.lcm]
    congr 1
    · have : ((p:ℤ) - 1) = ((p - 1 : ℕ) : ℤ) := by
        push_cast [Nat.cast_sub (by omega : 1 ≤ p)]
        ring
      rw [this, Int.natAbs_ofNat]
    · have : ((q:ℤ) - 1) = ((q - 1 : ℕ) : ℤ) := by
        push_cast [Nat.cast_sub (by omega : 1 ≤ q)]
        ring
      rw [this, Int.natAbs_ofNat]
  -- part 1: add is the product reduced mod n2
  have haddgen : ∀ cs : List ℤ, (∀ c ∈ cs, 0 ≤ c) →
      (PaillierPublicKey.mk n n2 g).add cs = cs.prod % n2 := by
    intro cs hcs
    rw [PaillierPublicKey.add]
    simp only
    rw [show cs.foldl (fun ret c => ret * c) 1 = cs.prod from
      (List.prod_eq_foldl).symm]
    exact Int.tmod_eq_emod (List.prod_nonneg hcs) (by omega)
  -- natural-number views of n, m1, m2
  set nN : ℕ := n.toNat with hnN
  have hncast : n = (nN : ℤ) := by omega
  set m1N : ℕ := m1.toNat with hm1N
  set m2N : ℕ := m2.toNat with hm2N
  have hm1cast : m1 = (m1N : ℤ) := by omega
  have hm2cast : m2 = (m2N : ℤ) := by omega
  -- Carmichael for g, r1, r2
  have hgpow : g ^ lamN ≡ 1 [ZMOD n] := by
    rw [hn]
    exact pow_lcm_one hp hq hpq g (hn ▸ hg)
  have hr1pow : r1 ^ lamN ≡ 1 [ZMOD n] := by
    rw [hn]
    exact pow_lcm_one hp hq hpq r1 (hn ▸ hr1)
  have hr2pow : r2 ^ lamN ≡ 1 [ZMOD n] := by
    rw [hn]
    exact pow_lcm_one hp hq hpq r2 (hn ▸ hr2)
  -- the value of w
  have hwval : w = g ^ lamN % n2 := by
    rw [modPow_spec (by rw [hlamcast]; positivity) (by omega : (0:ℤ) < n2)] at hw
    rw [hlamcast] at hw
    simp only [Int.toNat_natCast] at hw
    injection hw with hw
    exact hw.symm
  have hdvdn : n ∣ n2 := by
    rw [hn2]
    exact ⟨n, (sq n)⟩
  have hwmod : w ≡ 1 [ZMOD n] := by
    have h1 : w ≡ g ^ lamN [ZMOD n2] := by
      rw [hwval]
      exact Int.emod_emod_of_dvd _ dvd_rfl
    exact (h1.of_dvd hdvdn).trans hgpow
  obtain ⟨alpha, halpha⟩ : ∃ a, w - 1 = n * a := by
    obtain ⟨c, hc⟩ := Int.modEq_iff_dvd.mp hwmod
    exact ⟨-c, by linarith⟩
  have hLw : L w n = alpha := L_exact (by omega) halpha
  obtain ⟨hnpos', hmu0, hmun, hmuinv⟩ := modInv_spec hmu
  have halphainv : alpha * mu ≡ 1 [ZMOD n] := by
    rw [← hLw]
    exact hmuinv
  -- the ciphertext values
  have hc1v : c1 = ((g ^ m1N % n2) * (r1 ^ nN % n2)) % n2 := by
    rw [PaillierPublicKey.encrypt] at hc1
    simp only at hc1
    rw [modPow_spec hm1 (by omega : (0:ℤ) < n2), Option.some_bind,
      modPow_spec (by omega : (0:ℤ) ≤ n) (by omega : (0:ℤ) < n2),
      Option.map_some'] at hc1
    rw [← hm1N, ← hnN] at hc1
    injection hc1 with hc1
    exact hc1.symm
  have hc2v : c2 = ((g ^ m2N % n2) * (r2 ^ nN % n2)) % n2 := by
    rw [PaillierPublicKey.encrypt] at hc2
    simp only at hc2
    rw [modPow_spec hm2 (by omega : (0:ℤ) < n2), Option.some_bind,
      modPow_spec (by omega : (0:ℤ) ≤ n) (by omega : (0:ℤ) < n2),
      Option.map_some'] at hc2
    rw [← hm2N, ← hnN] at hc2
    injection hc2 with hc2
    exact hc2.symm
  have hc1cong : c1 ≡ g ^ m1N * r1 ^ nN [ZMOD n2] := by
    rw [hc1v]
    exact (Int.emod_emod_of_dvd _ dvd_rfl).trans
      (Int.ModEq.mul (Int.emod_emod_of_dvd _ dvd_rfl)
        (Int.emod_emod_of_dvd _ dvd_rfl))
  have hc2cong : c2 ≡ g ^ m2N * r2 ^ nN [ZMOD n2] := by
    rw [hc2v]
    exact (Int.emod_emod_of_dvd _ dvd_rfl).trans
      (Int.ModEq.mul (Int.emod_emod_of_dvd _ dvd_rfl)
        (Int.emod_emod_of_dvd _ dvd_rfl))
  have hc1nn : 0 ≤ c1 := by
    rw [hc1v]
    exact Int.emod_nonneg _ (by omega)
  have hc2nn : 0 ≤ c2 := by
    rw [hc2v]
    exact Int.emod_nonneg _ (by omega)
  -- add on the two ciphertexts
  have haddval : (PaillierPublicKey.mk n n2 g).add [c1, c2] = (c1 * c2) % n2 := by
    rw [haddgen [c1, c2] (by
      intro c hc
      simp only [List.mem_cons, List.not_mem_nil, or_false] at hc
      rcases hc with rfl | rfl
      · exact hc1nn
      · exact hc2nn)]
    simp [List.prod_cons]
  -- beta decompositions of r1^lam, r2^lam
  obtain ⟨b1, hb1⟩ : ∃ b, r1 ^ lamN = 1 + n * b := by
    obtain ⟨c, hc⟩ := Int.modEq_iff_dvd.mp hr1pow
    exact ⟨-c, by linarith⟩
  obtain ⟨b2, hb2⟩ : ∃ b, r2 ^ lamN = 1 + n * b := by
    obtain ⟨c, hc⟩ := Int.modEq_iff_dvd.mp hr2pow
    exact ⟨-c, by linarith⟩
  have hgl : g ^ lamN ≡ 1 + n * alpha [ZMOD n2] := by
    have h1 : g ^ lamN ≡ w [ZMOD n2] := by
      rw [hwval]
      exact (Int.emod_emod_of_dvd _ dvd_rfl).symm
    have h2 : w = 1 + n * alpha := by linarith
    rw [← h2]
    exact h1
  -- the decrypted residue
  set M : ℕ := m1N + m2N with hM
  have hAcong : (c1 * c2) % n2 ≡ g ^ M * (r1 ^ nN * r2 ^ nN) [ZMOD n2] := by
    have h1 : (c1 * c2) % n2 ≡ c1 * c2 [ZMOD n2] :=
      Int.emod_emod_of_dvd _ dvd_rfl
    have h2 := Int.ModEq.mul hc1cong hc2cong
    have h3 : g ^ m1N * r1 ^ nN * (g ^ m2N * r2 ^ nN) =
        g ^ M * (r1 ^ nN * r2 ^ nN) := by
      rw [hM, pow_add]
      ring
    rw [← h3]
    exact h1.trans h2
  have hone1 : ((1:ℤ) + (nN : ℤ) * b1 * n) ≡ 1 [ZMOD n2] := by
    rw [Int.modEq_iff_dvd]
    refine ⟨-b1, ?_⟩
    rw [hn2, ← hncast]
    ring
  have hone2 : ((1:ℤ) + (nN : ℤ) * b2 * n) ≡ 1 [ZMOD n2] := by
    rw [Int.modEq_iff_dvd]
    refine ⟨-b2, ?_⟩
    rw [hn2, ← hncast]
    ring
  have hybig : ((c1 * c2) % n2) ^ lamN ≡ 1 + (M : ℤ) * alpha * n [ZMOD n2] := by
    have h1 := Int.ModEq.pow lamN hAcong
    have h2 : (g ^ M * (r1 ^ nN * r2 ^ nN)) ^ lamN =
        (g ^ lamN) ^ M * ((r1 ^ lamN) ^ nN * (r2 ^ lamN) ^ nN) := by
      rw [mul_pow, mul_pow, pow_right_comm g, pow_right_comm r1,
        pow_right_comm r2]
    have h3 : (g ^ lamN) ^ M ≡ 1 + (M : ℤ) * alpha * n [ZMOD n2] := by
      have h4 := Int.ModEq.pow M hgl
      have h5 : ((1:ℤ) + n * alpha) ^ M ≡ 1 + (M : ℤ) * alpha * n [ZMOD n2] := by
        have h6 := one_add_mul_pow n alpha M
        rw [← hn2] at h6
        have h7 : (1:ℤ) + alpha * n = 1 + n * alpha := by ring
        rw [h7] at h6
        have h8 : (M:ℤ) * alpha * n = M * alpha * n := rfl
        exact h6
      exact h4.trans h5
    have h9 : (r1 ^ lamN) ^ nN ≡ 1 [ZMOD n2] := by
      rw [hb1]
      have h10 := one_add_mul_pow n b1 nN
      rw [← hn2] at h10
      have h11 : (1:ℤ) + b1 * n = 1 + n * b1 := by ring
      rw [h11] at h10
      refine h10.trans ?_
      have h12 : ((nN:ℤ)) * b1 * n = (nN:ℤ) * b1 * n := rfl
      exact hone1
    have h13 : (r2 ^ lamN) ^ nN ≡ 1 [ZMOD n2] := by
      rw [hb2]
      have h10 := one_add_mul_pow n b2 nN
      rw [← hn2] at h10
      have h11 : (1:ℤ) + b2 * n = 1 + n * b2 := by ring
      rw [h11] at h10
      exact h10.trans hone2
    have h14 := Int.ModEq.mul h3 (Int.ModEq.mul h9 h13)
    rw [← h2] at h14
    have h15 : ((1:ℤ) + (M:ℤ) * alpha * n) * (1 * 1) = 1 + (M:ℤ) * alpha * n := by
      ring
    rw [h15] at h14
    exact h1.trans h14
  set A : ℤ := (c1 * c2) % n2 with hA
  set y : ℤ := A ^ lamN % n2 with hy
  have hycong : y ≡ 1 + (M : ℤ) * alpha * n [ZMOD n2] := by
    rw [hy, hA]
    exact (Int.emod_emod_of_dvd _ dvd_rfl).trans hybig
  obtain ⟨t, ht⟩ := Int.modEq_iff_dvd.mp hycong
  have hgamma : y - 1 = n * ((M:ℤ) * alpha - n * t) := by
    rw [hn2] at ht
    linear_combination (-1 : ℤ) * ht
  have hLy : L y n = (M:ℤ) * alpha - n * t := L_exact (by omega) hgamma
  have hynn : 0 ≤ y := by
    rw [hy]
    exact Int.emod_nonneg _ (by omega)
  have hy1 : 1 ≤ y := by
    rcases eq_or_lt_of_le hynn with h0 | h0
    · exfalso
      have hd1 : n ∣ (1:ℤ) := by
        refine ⟨-((M:ℤ) * alpha - n * t), ?_⟩
        rw [← h0] at hgamma
        linear_combination (-1 : ℤ) * hgamma
      have := Int.le_of_dvd (by norm_num) hd1
      omega
    · omega
  have hgammann : 0 ≤ (M:ℤ) * alpha - n * t := by
    by_contra hcon
    push_neg at hcon
    have h5 : n * ((M:ℤ) * alpha - n * t) < 0 :=
      mul_neg_of_pos_of_neg (by omega) hcon
    linarith
  have hdec : (PaillierPrivateKey.mk lam mu (PaillierPublicKey.mk n n2 g)).decrypt
      ((PaillierPublicKey.mk n n2 g).add [c1, c2]) =
      some (Int.tmod (L y n * mu) n) := by
    rw [haddval, PaillierPrivateKey.decrypt]
    simp only
    rw [modPow_spec (by rw [hlamcast]; positivity) (by omega : (0:ℤ) < n2),
      Option.map_some']
    rw [hlamcast]
    simp only [Int.toNat_natCast]
  have hfin : (L y n * mu) % n = (m1 + m2) % n := by
    rw [hLy]
    have h1 : ((M:ℤ) * alpha - n * t) * mu ≡ (M:ℤ) * (alpha * mu) [ZMOD n] := by
      rw [Int.modEq_iff_dvd]
      exact ⟨t * mu, by ring⟩
    have h2 : (M:ℤ) * (alpha * mu) ≡ (M:ℤ) * 1 [ZMOD n] :=
      Int.ModEq.mul_left _ halphainv
    have h3 := h1.trans h2
    have h4 : (M:ℤ) * 1 = m1 + m2 := by
      rw [hM]
      push_cast
      rw [← hm1cast, ← hm2cast]
      ring
    rw [h4] at h3
    exact h3
  refine ⟨haddgen, ?_⟩
  rw [hdec]
  congr 1
  have hLynn : 0 ≤ L y n := by
    rw [hLy]
    exact hgammann
  rw [Int.tmod_eq_emod (mul_nonneg hLynn hmu0) (by omega : (0:ℤ) ≤ n)]
  exact hfin

theorem lcm_2_4 : lcm ((3:ℤ) - 1) ((5:ℤ) - 1) = 4 := by
  have h1 : ((3:ℤ) - 1) = 2 := by norm_num
  have h2 : ((5:ℤ) - 1) = 4 := by norm_num
  rw [h1, h2, lcm_eq 2 4 (by norm_num) (by norm_num)]
  decide

/-- A fully valid Paillier key (p = 3, q = 5, n = 15, n2 = 225, g = 16,
lambda = 4, mu = 4) together with the code-drawable encryption
randomness `r1 = 3` (not coprime to `n`): the homomorphic sum of
`encrypt(1, r1 = 3)` and `encrypt(0, r2 = 1)` decrypts to `8`, not
`(1 + 0) mod 15 = 1`.  The claim as stated (with no condition on the
randomness the code draws from `[1, n2]`) is false. -/
theorem paillier_add_noncoprime_r :
    Nat.Prime 3 ∧ Nat.Prime 5 ∧ (15:ℤ) = 3 * 5 ∧ (225:ℤ) = 15 ^ 2 ∧
    (4:ℤ) = lcm ((3:ℤ) - 1) ((5:ℤ) - 1) ∧
    modPow 16 4 225 = some 61 ∧ modInv (L 61 15) 15 = some 4 ∧
    randBetweenCan 225 1 3 ∧
    (PaillierPublicKey.mk 15 225 16).encrypt 1 3 = some 162 ∧
    (PaillierPublicKey.mk 15 225 16).encrypt 0 1 = some 1 ∧
    (PaillierPrivateKey.mk 4 4 (PaillierPublicKey.mk 15 225 16)).decrypt
      ((PaillierPublicKey.mk 15 225 16).add [162, 1]) = some 8 ∧
    ((1:ℤ) + 0) % 15 = 1 ∧ (8:ℤ) ≠ 1 := by
  refine ⟨by norm_num, by norm_num, by norm_num, by norm_num, lcm_2_4.symm,
    ?_, ?_, ?_, ?_, ?_, ?_, by norm_num, by norm_num⟩
  · rw [modPow_spec (by norm_num) (by norm_num)]
    decide
  · have hL : L 61 15 = 4 := by decide
    rw [hL]
    exact modInv_eq (by norm_num) (by norm_num) (by norm_num) (by decide)
  · refine ⟨by unfold randBetweenFails; omega, 2, ?_, by norm_num, by norm_num⟩
    have h4 : (225:ℤ) - 1 = 224 := by norm_num
    rw [h4]
    have hbl : bitLength 224 = 8 := by
      rw [bitLength]
      norm_num
      rw [bitLengthLoop]
      norm_num
      rw [bitLengthLoop]
      norm_num
      rw [bitLengthLoop]
      norm_num
      rw [bitLengthLoop]
      norm_num
      rw [bitLengthLoop]
      norm_num
      rw [bitLengthLoop]
      norm_num
      rw [bitLengthLoop]
      norm_num
    rw [hbl]
    exact ⟨by norm_num, [2], ⟨by decide, by decide⟩, by decide⟩
  · rw [PaillierPublicKey.encrypt]
    simp only
    rw [modPow_spec (by norm_num) (by norm_num), Option.some_bind,
      modPow_spec (by norm_num) (by norm_num), Option.map_some']
    decide
  · rw [PaillierPublicKey.encrypt]
    simp only
    rw [modPow_spec (by norm_num) (by norm_num), Option.some_bind,
      modPow_spec (by norm_num) (by norm_num), Option.map_some']
    decide
  · have hadd : (PaillierPublicKey.mk 15 225 16).add [162, 1] = 162 := by
      rw [PaillierPublicKey.add]
      decide
    rw [hadd, PaillierPrivateKey.decrypt]
    simp only
    rw [modPow_spec (by norm_num) (by norm_num), Option.map_some']
    decide

theorem paillier_homomorphic_add_witness :
    (PaillierPublicKey.mk 15 225 16).add [53, 49] =
        (([53, 49] : List ℤ)).prod % 225 ∧
    (PaillierPrivateKey.mk 4 4 (PaillierPublicKey.mk 15 225 16)).decrypt
      ((PaillierPublicKey.mk 15 225 16).add [53, 49]) = some (((3:ℤ) + 5) % 15) := by
  have hw : modPow 16 4 225 = some 61 := by
    rw [modPow_spec (by norm_num) (by norm_num)]
    decide
  have hmu : modInv (L 61 15) 15 = some 4 := by
    have hL : L 61 15 = 4 := by decide
    rw [hL]
    exact modInv_eq (by norm_num) (by norm_num) (by norm_num) (by decide)
  have hc1 : (PaillierPublicKey.mk 15 225 16).encrypt 3 2 = some 53 := by
    rw [PaillierPublicKey.encrypt]
    simp only
    rw [modPow_spec (by norm_num) (by norm_num), Option.some_bind,
      modPow_spec (by norm_num) (by norm_num), Option.map_some']
    decide
  have hc2 : (PaillierPublicKey.mk 15 225 16).encrypt 5 4 = some 49 := by
    rw [PaillierPublicKey.encrypt]
    simp only
    rw [modPow_spec (by norm_num) (by norm_num), Option.some_bind,
      modPow_spec (by norm_num) (by norm_num), Option.map_some']
    decide
  have h := @paillier_homomorphic_add 3 5 (by norm_num) (by norm_num)
    (by norm_num) 15 225 4 16 61 4
    (by norm_num) (by norm_num) lcm_2_4.symm
    (Int.isCoprime_iff_gcd_eq_one.mpr (by decide)) hw hmu
    3 5 2 4
    (by norm_num : (0:ℤ) ≤ 3) (by norm_num : (3:ℤ) < 15)
    (by norm_num : (0:ℤ) ≤ 5) (by norm_num : (5:ℤ) < 15)
    (Int.isCoprime_iff_gcd_eq_one.mpr (by decide))
    (Int.isCoprime_iff_gcd_eq_one.mpr (by decide)) 53 49 hc1 hc2
  exact ⟨h.1 [53, 49] (by intro c hc; simp at hc; rcases hc with rfl | rfl <;> norm_num), h.2⟩

/-! ## Claim C10 -/

/-- C10: for every Paillier public key (with `n > 0` and `n2 > 1`, as in
every generated key), `add` applied to the empty ciphertext list returns
`1`, and the matching private key (any `lambda ≥ 0`, any `mu`) decrypts
`1` to the plaintext `0`. -/
theorem paillier_add_empty {n n2 g lam mu : ℤ} (hn : 0 < n) (hn2 : 1 < n2)
    (hlam : 0 ≤ lam) :
    (PaillierPublicKey.mk n n2 g).add [] = 1 ∧
    (PaillierPrivateKey.mk lam mu (PaillierPublicKey.mk n n2 g)).decrypt 1 =
      some 0 := by
  constructor
  · rw [PaillierPublicKey.add]
    simp only [List.foldl_nil]
    exact Int.tmod_eq_of_lt (by norm_num) (by omega)
  · rw [PaillierPrivateKey.decrypt]
    simp only
    rw [modPow_spec hlam (by omega), Option.map_some']
    congr 1
    rw [one_pow, Int.emod_eq_of_lt (by norm_num) (by omega), L]
    norm_num

theorem paillier_add_empty_witness :
    (PaillierPublicKey.mk 15 225 16).add [] = 1 ∧
    (PaillierPrivateKey.mk 4 4 (PaillierPublicKey.mk 15 225 16)).decrypt 1 =
      some 0 :=
  paillier_add_empty (by norm_num) (by norm_num) (by norm_num)

/-! ## Claim C7 -/

/-- The bit-length argument `generatePaillierKeys(nbits)` passes to
`getPrime` for `q`: `Math.floor(nbits / 2) + 1`.  For an integer-valued
JS number `nbits` of moderate size these float operations are exact, so
they are modelled over `ℚ`. -/
def paillierQBits (nbits : ℕ) : ℚ :=
  (⌊(nbits : ℚ) / 2⌋ : ℚ) + 1

/-- The bit-length argument `generatePaillierKeys(nbits)` passes to
`getPrime` for `p`: `Math.floor(nbits) / 2` — note that the `floor` is
applied BEFORE the division, so for odd `nbits` the value is the
half-integer `nbits / 2`, not `⌊nbits / 2⌋`. -/
def paillierPBits (nbits : ℕ) : ℚ :=
  (⌊(nbits : ℚ)⌋ : ℚ) / 2

/-- C7: for every odd `bits`, the `q` prime is requested with
`⌊bits/2⌋ + 1` bits as claimed, but the `p` prime is requested with the
NON-INTEGRAL bit length `bits / 2` (e.g. `3.5` for `bits = 7`), not
`⌊bits/2⌋`: `Math.floor(nbits) / 2` divides after flooring. -/
theorem paillier_prime_bits_args (nbits : ℕ) (hodd : nbits % 2 = 1) :
    paillierQBits nbits = ((nbits / 2 : ℕ) : ℚ) + 1 ∧
    paillierPBits nbits = (nbits : ℚ) / 2 ∧
    paillierPBits nbits ≠ ((nbits / 2 : ℕ) : ℚ) := by
  obtain ⟨k, hk⟩ : ∃ k, nbits = 2 * k + 1 := ⟨nbits / 2, by omega⟩
  subst hk
  have hdiv : (2 * k + 1) / 2 = k := by omega
  have hfloor : ⌊((2 * k + 1 : ℕ) : ℚ) / 2⌋ = (k : ℤ) := by
    rw [Int.floor_eq_iff]
    push_cast
    constructor
    · rw [le_div_iff (by norm_num)]
      linarith
    · rw [div_lt_iff (by norm_num)]
      linarith
  refine ⟨?_, ?_, ?_⟩
  · rw [paillierQBits, hfloor, hdiv]
    push_cast
    ring
  · rw [paillierPBits, Int.floor_natCast]
    push_cast
    ring
  · rw [paillierPBits, Int.floor_natCast, hdiv]
    push_cast
    intro hcon
    rw [div_eq_iff (by norm_num : (2:ℚ) ≠ 0)] at hcon
    linarith

theorem paillier_prime_bits_args_witness :
    paillierQBits 7 = ((7 / 2 : ℕ) : ℚ) + 1 ∧
    paillierPBits 7 = (7 : ℚ) / 2 ∧
    paillierPBits 7 ≠ ((7 / 2 : ℕ) : ℚ) :=
  paillier_prime_bits_args 7 (by norm_num)


/-! ## Shamir secret sharing

The TypeScript source `Secret-sharing.ts` is not part of the repository
snapshot (only its generated API documentation — the `SharedKey` class
and the signatures of `genSharedKeys` / `LagrangeInterpolation` — is
included), so this component is modelled from the specification. -/

/-- Modelled from the spec: the `SharedKey` record of Secret-sharing.ts
(missing from the snapshot), carrying `value`, `position`, `threshold`
and `modulus` (spec section 3). -/
structure SharedKey where
  value : ℤ
  position : ℤ
  threshold : ℕ
  modulus : ℤ

/-- Modelled from the spec: one evaluation of the sharing polynomial
`f(x) = secret + a_1 x + … + a_{t-1} x^(t-1) mod p` (spec section 4.6),
for the coefficient list `a_1 … a_{t-1}`. -/
def shamirEval (secret : ℤ) (coeffs : List ℤ) (x p : ℤ) : ℤ :=
  (secret + (coeffs.enum.map (fun ia => ia.2 * x ^ (ia.1 + 1))).sum) % p

/-- Modelled from the spec: the term of share `i` in the Lagrange
reconstruction sum, `value_i * Π_(j ≠ i) position_j *
modInv(position_j − position_i, p)` (spec section 4.6); `none` when some
modular inverse does not exist. -/
def lagrangeTerm (shares : List SharedKey) (p : ℤ) (i : ℕ) (si : SharedKey) :
    Option ℤ :=
  ((shares.enum.filter (fun js => js.1 ≠ i)).mapM
    (fun js => (modInv (js.2.position - si.position) p).map
      (fun inv => js.2.position * inv))).map
    (fun l => si.value * l.prod)

/-- Modelled from the spec: `LagrangeInterpolation(receivedSharedKeys)`
(missing from the snapshot): sums the Lagrange terms of all supplied
shares and reduces mod `p`, the modulus carried by the shares. -/
def LagrangeInterpolation (shares : List SharedKey) : Option ℤ :=
  match shares with
  | [] => none
  | s :: _ =>
    (shares.enum.mapM (fun isi => lagrangeTerm shares s.modulus isi.1 isi.2)).map
      (fun terms => terms.sum % s.modulus)

/-! ### List/Option plumbing -/

theorem mapM_eq_map_of_some {α β : Type} (f : α → Option β) (g : α → β)
    (l : List α) (h : ∀ a ∈ l, f a = some (g a)) :
    l.mapM f = some (l.map g) := by
  induction l with
  | nil => rfl
  | cons a t ih =>
    rw [List.mapM_cons, h a (by simp), ih (fun x hx => h x (by simp [hx]))]
    rfl

theorem list_filter_map_prod {α : Type} (l : List α) (P : α → Prop)
    [DecidablePred P] (h : α → ℤ) :
    ((l.filter (fun x => P x)).map h).prod =
      (l.map (fun x => if P x then h x else 1)).prod := by
  induction l with
  | nil => rfl
  | cons a t ih =>
    by_cases hP : P a
    · rw [List.filter_cons_of_pos (by simpa using hP)]
      simp only [List.map_cons, List.prod_cons, if_pos hP]
      rw [ih]
    · rw [List.filter_cons_of_neg (by simpa using hP)]
      simp only [List.map_cons, List.prod_cons, if_neg hP]
      rw [ih, one_mul]

theorem enum_map_eq_ofFn {α β : Type} (l : List α) (g : ℕ × α → β) :
    l.enum.map g = List.ofFn (fun i : Fin l.length => g (i.1, l.get i)) := by
  apply List.ext_get
  · simp
  · intro i h1 h2
    simp only [List.get_eq_getElem, List.getElem_ofFn]
    rw [List.getElem_map, List.getElem_enum]

/-! ### Lagrange interpolation at zero over a field -/

theorem lagrange_eval_zero {F : Type} [Field F] [DecidableEq F] (s : Finset F)
    (f : Polynomial F) (hdeg : f.degree < s.card) :
    ∑ x ∈ s, Polynomial.eval x f * ∏ y ∈ s.erase x, y * (y - x)⁻¹ =
      f.coeff 0 := by
  have h1 : f = Lagrange.interpolate s id (fun i => Polynomial.eval (id i) f) :=
    Lagrange.eq_interpolate (Function.injective_id.injOn) hdeg
  have h2 : f.coeff 0 = Polynomial.eval 0 f := Polynomial.coeff_zero_eq_eval_zero f
  rw [h2]
  conv_rhs => rw [h1]
  rw [Lagrange.interpolate_apply, Polynomial.eval_finset_sum]
  refine Finset.sum_congr rfl ?_
  intro x hx
  rw [Polynomial.eval_mul, Polynomial.eval_C]
  simp only [id]
  congr 1
  rw [Lagrange.basis, Polynomial.eval_prod]
  refine Finset.prod_congr rfl ?_
  intro y hy
  rw [Lagrange.basisDivisor, Polynomial.eval_mul, Polynomial.eval_C,
    Polynomial.eval_sub, Polynomial.eval_X, Polynomial.eval_C]
  rw [show y - x = -(x - y) by ring, inv_neg]
  simp only [id]
  ring_nf

/-! ## Claim C9 -/

/-- C9 (spec-modelled, amended): reconstruction from any `t`-or-larger
subset of the shares of one Shamir session returns the secret exactly,
PROVIDED the session's prime exceeds the share count (`p > n`, the
hypothesis `hnp`).  The session draws a prime `p > secret` (the spec's
only redraw condition), coefficients `a_1 … a_(t-1)`, and emits shares
`f(1) … f(n)`; the subset is given by its (distinct) positions
`xs ⊆ [1, n]`.  Without `p > n` the claim fails: two positions can
coincide mod `p`, the denominator `x_j - x_i` becomes a multiple of `p`
and `modInv` throws — see the counterexample below. -/
theorem shamir_reconstruct {pP : ℕ} (hp : pP.Prime)
    (secret : ℤ) (hs0 : 0 ≤ secret) (hsp : secret < (pP : ℤ))
    (coeffs : List ℤ) (t nn : ℕ) (ht : t = coeffs.length + 1) (htn : t ≤ nn)
    (xs : List ℤ) (hnodup : xs.Nodup)
    (hxr : ∀ x ∈ xs, 1 ≤ x ∧ x ≤ (nn : ℤ))
    (hnp : (nn : ℤ) < (pP : ℤ)) (hsize : t ≤ xs.length) :
    LagrangeInterpolation (xs.map (fun x =>
      SharedKey.mk (shamirEval secret coeffs x (pP : ℤ)) x t (pP : ℤ))) =
      some secret := by
  haveI : Fact pP.Prime := ⟨hp⟩
  have hp2 : 2 ≤ pP := hp.two_le
  have hp1 : 1 < (pP : ℤ) := by exact_mod_cast hp2
  set p : ℤ := (pP : ℤ) with hpdef
  set mk : ℤ → SharedKey :=
    fun x => SharedKey.mk (shamirEval secret coeffs x p) x t p with hmk
  set shares : List SharedKey := xs.map mk with hshares
  set N : ℕ := xs.length with hN
  have hshlen : shares.length = N := by
    rw [hshares, List.length_map]
  have hNpos : 0 < N := by omega
  set X : ℕ → ℤ := fun j => xs.getD j 0 with hX
  set V : ℕ → ℤ := fun j => shamirEval secret coeffs (X j) p with hV
  have hmem : ∀ js ∈ shares.enum, js.1 < N ∧
      js.2 = SharedKey.mk (V js.1) (X js.1) t p := by
    intro js hjs
    rw [List.mem_enum_iff_getElem?] at hjs
    rw [hshares, List.getElem?_map] at hjs
    rcases h0 : xs[js.1]? with _ | x0
    · rw [h0] at hjs
      simp at hjs
    · rw [h0] at hjs
      simp only [Option.map_some'] at hjs
      have hlt : js.1 < N := by
        rw [hN]
        exact (List.getElem?_eq_some.mp h0).1
      have hx0 : X js.1 = x0 := by
        rw [hX]
        simp only
        rw [List.getD_eq_getElem xs 0 hlt]
        have := (List.getElem?_eq_some.mp h0).2
        omega
      refine ⟨hlt, ?_⟩
      injection hjs with hjs
      rw [← hjs, ← hx0]
  have hXmem : ∀ j, j < N → X j ∈ xs := by
    intro j hj
    rw [hX]
    simp only
    rw [List.getD_eq_getElem xs 0 (by omega)]
    exact List.getElem_mem _
  have hXr : ∀ j, j < N → 1 ≤ X j ∧ X j ≤ (nn : ℤ) := fun j hj =>
    hxr _ (hXmem j hj)
  have hdistinct : ∀ i j, i < N → j < N → i ≠ j → X i ≠ X j := by
    intro i j hi hj hij hcon
    rw [hX] at hcon
    simp only at hcon
    rw [List.getD_eq_getElem xs 0 (show i < xs.length by omega),
      List.getD_eq_getElem xs 0 (show j < xs.length by omega)] at hcon
    exact hij (List.Nodup.getElem_inj_iff hnodup |>.mp hcon)
  have hnotdvd : ∀ i j, i < N → j < N → i ≠ j → ¬ (p ∣ (X j - X i)) := by
    intro i j hi hj hij hdvd
    have h1 := hXr i hi
    have h2 := hXr j hj
    have hne : X j - X i ≠ 0 := fun h =>
      hdistinct i j hi hj hij (by omega)
    have hpos : 0 < |X j - X i| := abs_pos.mpr hne
    have hlt : |X j - X i| < p := abs_lt.mpr ⟨by omega, by omega⟩
    have := Int.le_of_dvd hpos ((dvd_abs _ _).mpr hdvd)
    omega
  set invVal : ℤ → ℤ := fun a => (((a : ZMod pP))⁻¹.val : ℤ) with hinvVal
  have hinv : ∀ a : ℤ, ¬ (p ∣ a) → modInv a p = some (invVal a) := by
    intro a ha
    have hane : ((a : ZMod pP)) ≠ 0 := by
      intro h0
      exact ha (by
        rw [hpdef]
        exact_mod_cast (ZMod.intCast_zmod_eq_zero_iff_dvd a pP).mp h0)
    refine modInv_eq hp1 (by positivity) ?_ ?_
    · rw [hinvVal]
      simp only
      rw [hpdef]
      exact_mod_cast ZMod.val_lt _
    · rw [hinvVal]
      simp only
      rw [hpdef, ← ZMod.intCast_eq_intCast_iff]
      push_cast
      rw [ZMod.natCast_rightInverse ((a : ZMod pP))⁻¹]
      exact mul_inv_cancel₀ hane
  have hterm : ∀ js ∈ shares.enum,
      lagrangeTerm shares p js.1 js.2 = some (js.2.value *
        ((shares.enum.filter (fun ks => ks.1 ≠ js.1)).map
          (fun ks => ks.2.position * invVal (ks.2.position - js.2.position))).prod) := by
    intro js hjs
    obtain ⟨hjlt, hjval⟩ := hmem js hjs
    rw [lagrangeTerm]
    rw [mapM_eq_map_of_some _
      (fun ks => ks.2.position * invVal (ks.2.position - js.2.position)) _ ?_]
    · rw [Option.map_some']
    · intro ks hks
      rw [List.mem_filter] at hks
      obtain ⟨hksmem, hkne⟩ := hks
      have hkne' : ks.1 ≠ js.1 := by simpa using hkne
      obtain ⟨hklt, hkval⟩ := hmem ks hksmem
      have hnd := hnotdvd js.1 ks.1 hjlt hklt (fun h => hkne' h.symm)
      rw [hkval, hjval]
      simp only
      rw [hinv _ hnd, Option.map_some']
      simp [hkval]
  set T : ℕ × SharedKey → ℤ := fun js => js.2.value *
      ((shares.enum.filter (fun ks => ks.1 ≠ js.1)).map
        (fun ks => ks.2.position * invVal (ks.2.position - js.2.position))).prod
    with hT
  have hLI : LagrangeInterpolation shares =
      some ((shares.enum.map T).sum % p) := by
    have hne : shares ≠ [] := by
      intro h
      rw [h] at hshlen
      simp at hshlen
      omega
    obtain ⟨s0, rest, hcons⟩ := List.exists_cons_of_ne_nil hne
    have hs0mod : s0.modulus = p := by
      have hs0mem : s0 ∈ shares := by
        rw [hcons]
        exact List.mem_cons_self _ _
      rw [hshares] at hs0mem
      obtain ⟨x1, _, hx1⟩ := List.mem_map.mp hs0mem
      rw [← hx1, hmk]
    rw [hcons, LagrangeInterpolation, ← hcons, hs0mod]
    rw [mapM_eq_map_of_some _ T _ (fun js hjs => by rw [hterm js hjs, hT])]
    rw [Option.map_some']
  set φN : ℕ → ZMod pP := fun j => ((X j : ℤ) : ZMod pP) with hφN
  have hφinj : ∀ i j, i < N → j < N → φN i = φN j → i = j := by
    intro i j hi hj hij
    by_contra hne
    have h1 : X i ≡ X j [ZMOD (pP : ℤ)] :=
      (ZMod.intCast_eq_intCast_iff _ _ _).mp hij
    have h2 : p ∣ X j - X i := Int.ModEq.dvd h1
    exact hnotdvd i j hi hj hne h2
  set S : Finset (ZMod pP) := (Finset.range N).image φN with hS
  have hinjOn : ∀ x ∈ Finset.range N, ∀ y ∈ Finset.range N,
      φN x = φN y → x = y := by
    intro x hx y hy hxy
    exact hφinj x y (Finset.mem_range.mp hx) (Finset.mem_range.mp hy) hxy
  have hcard : S.card = N := by
    rw [hS, Finset.card_image_of_injOn hinjOn, Finset.card_range]
  set fpoly : Polynomial (ZMod pP) :=
    Polynomial.C ((secret : ℤ) : ZMod pP) +
      ∑ i ∈ Finset.range coeffs.length,
        Polynomial.C ((coeffs.getD i 0 : ℤ) : ZMod pP) *
          Polynomial.X ^ (i + 1) with hfpoly
  have hdeg : fpoly.degree < S.card := by
    rw [hcard]
    have h1 : fpoly.degree ≤ (coeffs.length : WithBot ℕ) := by
      rw [hfpoly]
      refine le_trans (Polynomial.degree_add_le _ _) ?_
      rw [max_le_iff]
      constructor
      · exact le_trans (Polynomial.degree_C_le) (by exact_mod_cast Nat.zero_le _)
      · refine le_trans (Polynomial.degree_sum_le _ _) ?_
        rw [Finset.sup_le_iff]
        intro i hi
        refine le_trans (Polynomial.degree_C_mul_X_pow_le _ _) ?_
        exact_mod_cast Nat.succ_le_of_lt (Finset.mem_range.mp hi)
    refine lt_of_le_of_lt h1 ?_
    exact_mod_cast (by omega : coeffs.length < N)
  have hcoeff0 : fpoly.coeff 0 = ((secret : ℤ) : ZMod pP) := by
    rw [hfpoly, Polynomial.coeff_add, Polynomial.coeff_C, if_pos rfl,
      Polynomial.finset_sum_coeff]
    have hz : ∀ i ∈ Finset.range coeffs.length,
        (Polynomial.C ((coeffs.getD i 0 : ℤ) : ZMod pP) *
          Polynomial.X ^ (i + 1)).coeff 0 = 0 := by
      intro i _
      rw [Polynomial.coeff_C_mul, Polynomial.coeff_X_pow, if_neg (by omega)]
      ring
    rw [Finset.sum_congr rfl hz, Finset.sum_const_zero, add_zero]
  have hcastmod : ∀ a : ℤ, ((a % p : ℤ) : ZMod pP) = (a : ZMod pP) := by
    intro a
    rw [hpdef]
    exact (ZMod.intCast_eq_intCast_iff _ _ _).mpr
      (Int.emod_emod_of_dvd a dvd_rfl)
  have hcastinv : ∀ a : ℤ, ((invVal a : ℤ) : ZMod pP) = ((a : ZMod pP))⁻¹ := by
    intro a
    rw [hinvVal]
    simp only
    push_cast
    exact ZMod.natCast_rightInverse _
  have heval : ∀ j, j < N →
      Polynomial.eval (φN j) fpoly = ((V j : ℤ) : ZMod pP) := by
    intro j hj
    rw [hV]
    simp only
    rw [shamirEval, hcastmod]
    push_cast
    rw [List.map_map]
    rw [enum_map_eq_ofFn coeffs
      ((Int.cast : ℤ → ZMod pP) ∘ (fun ia => ia.2 * X j ^ (ia.1 + 1)))]
    rw [List.sum_ofFn]
    have hterms : ∀ i : Fin coeffs.length,
        ((Int.cast : ℤ → ZMod pP) ∘
          (fun ia : ℕ × ℤ => ia.2 * X j ^ (ia.1 + 1))) (i.1, coeffs.get i) =
        (fun k : ℕ => ((coeffs.getD k 0 : ℤ) : ZMod pP) * (φN j) ^ (k + 1)) i.1 := by
      intro i
      simp only [Function.comp]
      push_cast
      rw [hφN]
      simp only
      congr 2
      rw [List.getD_eq_getElem coeffs 0 i.2]
      rfl
    rw [Finset.sum_congr rfl (fun i _ => hterms i)]
    rw [Fin.sum_univ_eq_sum_range
      (fun k : ℕ => ((coeffs.getD k 0 : ℤ) : ZMod pP) * (φN j) ^ (k + 1))]
    rw [hfpoly]
    rw [Polynomial.eval_add, Polynomial.eval_C, Polynomial.eval_finset_sum]
    congr 1
    refine Finset.sum_congr rfl ?_
    intro i _
    rw [Polynomial.eval_mul, Polynomial.eval_C, Polynomial.eval_pow,
      Polynomial.eval_X]
  have hmemFin : ∀ i : Fin shares.length, (i.1, shares.get i) ∈ shares.enum := by
    intro i
    rw [List.mem_enum_iff_getElem?]
    rw [List.getElem?_eq_getElem i.2]
    rw [List.get_eq_getElem]
  have himg_erase : ∀ j, j < N →
      ((Finset.range N).image φN).erase (φN j) =
        ((Finset.range N).erase j).image φN := by
    intro j hj
    ext z
    simp only [Finset.mem_erase, Finset.mem_image, Finset.mem_range]
    constructor
    · rintro ⟨hzne, k, hk, hkz⟩
      refine ⟨k, ⟨?_, hk⟩, hkz⟩
      intro he
      subst he
      exact hzne hkz.symm
    · rintro ⟨k, ⟨hkj, hk⟩, hkz⟩
      refine ⟨?_, k, hk, hkz⟩
      intro he
      exact hkj (hφinj k j hk hj (hkz.trans he))
  have hL2 : ∑ j ∈ Finset.range N, ((V j : ℤ) : ZMod pP) *
      ∏ k ∈ (Finset.range N).erase j, φN k * (φN k - φN j)⁻¹
      = ((secret : ℤ) : ZMod pP) := by
    rw [← hcoeff0, ← lagrange_eval_zero S fpoly hdeg]
    rw [hS, Finset.sum_image hinjOn]
    refine Finset.sum_congr rfl ?_
    intro j hj
    have hjN : j < N := Finset.mem_range.mp hj
    rw [himg_erase j hjN, Finset.prod_image ?_, heval j hjN]
    intro x hx y hy hxy
    exact hinjOn x (Finset.mem_of_mem_erase hx) y (Finset.mem_of_mem_erase hy)
      hxy
  have hTcast : ∀ i : Fin shares.length,
      ((T (i.1, shares.get i) : ℤ) : ZMod pP) =
        (fun j : ℕ => ((V j : ℤ) : ZMod pP) *
          ∏ k ∈ (Finset.range N).erase j, φN k * (φN k - φN j)⁻¹) i.1 := by
    intro i
    obtain ⟨hiN, hival⟩ := hmem (i.1, shares.get i) (hmemFin i)
    have hival' : shares.get i = SharedKey.mk (V i.1) (X i.1) t p := hival
    have hiN' : i.1 < N := hiN
    simp only [hT, hival']
    rw [list_filter_map_prod shares.enum (fun ks => ks.1 ≠ i.1)
      (fun ks => ks.2.position * invVal (ks.2.position - X i.1))]
    push_cast
    rw [List.map_map, enum_map_eq_ofFn shares
      ((Int.cast : ℤ → ZMod pP) ∘ (fun ks : ℕ × SharedKey =>
        if ks.1 ≠ i.1 then ks.2.position * invVal (ks.2.position - X i.1)
        else 1)), List.prod_ofFn]
    have hfac : ∀ k : Fin shares.length,
        ((Int.cast : ℤ → ZMod pP) ∘ (fun ks : ℕ × SharedKey =>
          if ks.1 ≠ i.1 then ks.2.position * invVal (ks.2.position - X i.1)
          else 1)) (k.1, shares.get k) =
        (fun m : ℕ => if m ≠ i.1 then φN m * (φN m - φN i.1)⁻¹ else 1) k.1 := by
      intro k
      obtain ⟨hkN, hkval⟩ := hmem (k.1, shares.get k) (hmemFin k)
      have hkval' : shares.get k = SharedKey.mk (V k.1) (X k.1) t p := hkval
      simp only [Function.comp, hkval']
      rw [apply_ite (Int.cast : ℤ → ZMod pP)]
      by_cases hkj : k.1 ≠ i.1
      · rw [if_pos hkj, if_pos hkj]
        push_cast
        rw [hcastinv]
        push_cast
        simp only [hφN]
      · rw [if_neg hkj, if_neg hkj]
        norm_num
    rw [Finset.prod_congr rfl (fun k _ => hfac k)]
    rw [Fin.prod_univ_eq_prod_range
      (fun m : ℕ => if m ≠ i.1 then φN m * (φN m - φN i.1)⁻¹ else 1)
      shares.length]
    have hrange : Finset.range shares.length = Finset.range N := by
      rw [hshlen]
    rw [hrange, ← Finset.prod_filter, Finset.filter_ne']
  have hcast_sum : (((shares.enum.map T).sum : ℤ) : ZMod pP) =
      ((secret : ℤ) : ZMod pP) := by
    push_cast
    rw [List.map_map, enum_map_eq_ofFn shares ((Int.cast : ℤ → ZMod pP) ∘ T),
      List.sum_ofFn]
    simp only [Function.comp]
    rw [Finset.sum_congr rfl (fun i _ => hTcast i)]
    rw [Fin.sum_univ_eq_sum_range
      (fun j : ℕ => ((V j : ℤ) : ZMod pP) *
        ∏ k ∈ (Finset.range N).erase j, φN k * (φN k - φN j)⁻¹)
      shares.length]
    have hrange2 : Finset.range shares.length = Finset.range N := by
      rw [hshlen]
    rw [hrange2]
    exact hL2
  rw [hLI]
  congr 1
  have hmod : (shares.enum.map T).sum % p = secret % p := by
    rw [hpdef]
    exact (ZMod.intCast_eq_intCast_iff _ _ _).mp hcast_sum
  rw [hmod, Int.emod_eq_of_lt hs0 hsp]


/-- Witness: with `p = 7`, secret `3`, polynomial `3 + 2x` (threshold 2),
reconstruction from the shares at positions `1` and `3` (out of `n = 3`)
returns `3`. -/
theorem shamir_reconstruct_witness :
    LagrangeInterpolation (([1, 3] : List ℤ).map (fun x =>
      SharedKey.mk (shamirEval 3 [2] x (7 : ℤ)) x 2 (7 : ℤ))) =
      some 3 :=
  @shamir_reconstruct 7 (by norm_num) 3 (by norm_num) (by norm_num)
    [2] 2 3 rfl (by norm_num) [1, 3] (by norm_num)
    (by intro x hx; fin_cases hx <;> norm_num) (by norm_num) (by norm_num)

/-- C9 counterexample (spec-modelled): a session covered by the original
claim on which reconstruction does not return the secret.  With
`primeBits = 2` the session can draw the prime `p = 3` (it exceeds the
secret `1`, which is the spec's only redraw condition), threshold
`t = 2` (one coefficient, here `a_1 = 1`), `n = 5` shares at distinct
positions in `[1, 5]`.  Reconstructing from the `t`-subset at positions
`{1, 4}` computes `modInv(4 - 1, 3) = modInv(3, 3)`: `toZn(3, 3) = 0`,
and `eGcd(0, 3)` throws a `RangeError`, so the interpolation throws
(`none`) instead of returning `1`.  The conjuncts record that this
session satisfies every condition of the original claim: `p` prime,
`p > secret`, `t ≤ n`, distinct positions drawn from `[1, n]`, subset
size `≥ t`. -/
theorem shamir_reconstruct_p_le_n :
    Nat.Prime 3 ∧ (1 : ℤ) < 3 ∧ 2 ≤ 5 ∧
    ([1, 4] : List ℤ).Nodup ∧ (∀ x ∈ ([1, 4] : List ℤ), 1 ≤ x ∧ x ≤ 5) ∧
    LagrangeInterpolation (([1, 4] : List ℤ).map (fun x =>
      SharedKey.mk (shamirEval 1 [1] x (3 : ℤ)) x 2 (3 : ℤ))) = none := by
  refine ⟨by norm_num, by norm_num, by norm_num, by decide, by decide, ?_⟩
  decide

end ModulsCiber
